import Mathlib

/-!
Verification of the LaTeX word-count tool (`main.py` and the `latex_wc`
package).  The tokenizer pipeline, the frequency counter and the output
writers are embedded shallowly over `List Char`; the two CLI entry points
are modelled as pure functions from an abstract file-system view to an
exit code together with the ordered list of file-I/O events they perform.

All regex-based rewriting stages of the Python source are embedded as
explicit left-to-right scanners with the exact matching semantics of the
corresponding `re` patterns (leftmost match, each match replaced by a
single space, scanning resumes after the replaced span).
-/

namespace LatexWC

/-- Text is modelled as a list of characters. -/
abbrev Text := List Char

/-- Characters matched by the regex class `[A-Za-z]` (used by `_TOKEN_RE`). -/
def isAsciiLetter (c : Char) : Bool :=
  (65 ≤ c.toNat && c.toNat ≤ 90) || (97 ≤ c.toNat && c.toNat ≤ 122)

/-- Lower-case ASCII letters `a`-`z`. -/
def isLowerAZ (c : Char) : Bool :=
  97 ≤ c.toNat && c.toNat ≤ 122

/-- Characters matched by the regex class `[a-zA-Z@]` (LaTeX command names,
`_LATEX_COMMAND_RE`). -/
def isCmdNameChar (c : Char) : Bool :=
  isAsciiLetter c || c = '@'

/-- Whitespace recognised by the regex escape `\s` (the ASCII part, which is
all that can follow the LaTeX artifacts handled here). -/
def isPySpace (c : Char) : Bool :=
  c = ' ' || c = '\t' || c = '\n' || c = '\r' || c = '\x0b' || c = '\x0c'

/-- Line-boundary characters of Python's `str.splitlines`. -/
def isLineBreak (c : Char) : Bool :=
  c = '\n' || c = '\r' || c = '\x0b' || c = '\x0c' ||
  c = '\x1c' || c = '\x1d' || c = '\x1e' || c = '\x85' ||
  c = '\u2028' || c = '\u2029'

/-- `chopLit p t` returns `some r` with `t = p ++ r` when the literal `p` is
an initial segment of `t`, else `none`.  This is the basic building block of
all literal parts of the regex scanners. -/
def chopLit : Text → Text → Option Text
  | [], t => some t
  | _ :: _, [] => none
  | p :: ps, c :: cs => if c = p then chopLit ps cs else none

/-- Drop leading regex-`\s` whitespace (`\s*`). -/
def skipWS : Text → Text
  | [] => []
  | c :: rest => if isPySpace c then skipWS rest else c :: rest

/-- `findAfterChar ch t` is the remainder of `t` after the first occurrence
of `ch`, or `none`; it models the regex fragment `[^ch]*ch`. -/
def findAfterChar (ch : Char) : Text → Option Text
  | [] => none
  | c :: rest => if c = ch then some rest else findAfterChar ch rest

/-! ### Comment stripping (`_strip_comments`, `_LATEX_COMMENT_RE`)

The regex `(?<!\\)%.*$` is applied per line with `re.sub('', line)`: it
deletes everything from the first `%` whose immediately preceding character
is not a backslash, to the end of the line. -/

/-- One pass of `_LATEX_COMMENT_RE.sub('', line)`; `prev` is the character
just before the current position (for the `(?<!\\)` look-behind). -/
def stripCommentLineGo : Option Char → Text → Text
  | _, [] => []
  | prev, c :: rest =>
    if c = '%' then
      if prev = some '\\' then '%' :: stripCommentLineGo (some '%') rest
      else []
    else c :: stripCommentLineGo (some c) rest

def stripCommentLine (line : Text) : Text := stripCommentLineGo none line

/-- Python `str.splitlines` treats `"\r\n"` as a single break; normalising
it to `"\n"` first lets the splitter treat breaks char-by-char. -/
def normalizeCRLF : Text → Text
  | [] => []
  | [c] => [c]
  | c :: d :: rest =>
    if c = '\r' then
      if d = '\n' then '\n' :: normalizeCRLF rest
      else c :: normalizeCRLF (d :: rest)
    else c :: normalizeCRLF (d :: rest)

/-- Splitter for `str.splitlines` after CRLF normalisation: a trailing break
does not produce a final empty line. -/
def splitlinesGo : Text → Text → List Text
  | [], acc => [acc.reverse]
  | c :: rest, acc =>
    if isLineBreak c then
      match rest with
      | [] => [acc.reverse]
      | _ :: _ => acc.reverse :: splitlinesGo rest []
    else splitlinesGo rest (c :: acc)

/-- Python `str.splitlines` (restricted to the break set above). -/
def splitlines (t : Text) : List Text :=
  match t with
  | [] => []
  | _ :: _ => splitlinesGo (normalizeCRLF t) []

/-- `'\n'.join(lines)`. -/
def joinNL : List Text → Text
  | [] => []
  | [l] => l
  | l :: ls => l ++ '\n' :: joinNL ls

/-- `_strip_comments`: strip a comment from every line, rejoin with `\n`. -/
def stripComments (tex : Text) : Text :=
  joinNL ((splitlines tex).map stripCommentLine)

/-! ### Math removal (`_remove_math` and its five regexes)

Each stage is a left-to-right `re.sub(pattern, ' ', text)` scan: at every
position the pattern is tried; a match is replaced by one space and the
scan resumes after it, otherwise the scan advances one character. -/

/-- The environment names of `_MATH_ENV_RE`. -/
def mathEnvNames : List Text :=
  ["equation", "align", "align*", "equation*", "gather", "gather*",
   "multline", "multline*"].map String.data

/-- The literal `\kw{name}`. -/
def envTagPat (kw n : Text) : Text := '\\' :: (kw ++ '{' :: (n ++ ['}']))

/-- Try `\kw{n}` for each listed environment name at the head of `t`. -/
def mathTagAt (kw : Text) : List Text → Text → Option Text
  | [], _ => none
  | n :: ns, t =>
    match chopLit (envTagPat kw n) t with
    | some r => some r
    | none => mathTagAt kw ns t

def kwBegin : Text := "begin".data
def kwEnd : Text := "end".data

/-- Remainder after the earliest math `\end{...}` tag in `t` (the
non-greedy `.*?\end{...}` part of `_MATH_ENV_RE`). -/
def findMathEnd : Text → Option Text
  | [] => none
  | c :: rest =>
    match mathTagAt kwEnd mathEnvNames (c :: rest) with
    | some r => some r
    | none => findMathEnd rest

/-- `_MATH_ENV_RE` at the head of `t`: a math `\begin{...}` tag followed
(non-greedily, DOTALL) by the earliest math `\end{...}` tag. -/
def mathEnvMatchAt (t : Text) : Option Text :=
  match mathTagAt kwBegin mathEnvNames t with
  | some r => findMathEnd r
  | none => none

/-- Greedy body of `_DISPLAY_DOLLAR_MATH_RE`: `(?:\\.|[^$\\])*` with DOTALL
(an escape pair consumes any character; otherwise stop at `$` or at a lone
backslash). -/
def chompDisplayBody : Text → Text
  | [] => []
  | c :: rest =>
    if c = '$' then c :: rest
    else if c = '\\' then
      match rest with
      | [] => c :: rest
      | _ :: rest2 => chompDisplayBody rest2
    else chompDisplayBody rest

/-- `_DISPLAY_DOLLAR_MATH_RE` (`\$\$(?:\\.|[^$\\])*\$\$`) at the head of `t`. -/
def displayMathAt (t : Text) : Option Text :=
  match chopLit ['$', '$'] t with
  | none => none
  | some r => chopLit ['$', '$'] (chompDisplayBody r)

/-- Greedy body of `_INLINE_DOLLAR_MATH_RE`: as above but without DOTALL,
so `\\.` cannot consume a newline. -/
def chompInlineBody : Text → Text
  | [] => []
  | c :: rest =>
    if c = '$' then c :: rest
    else if c = '\\' then
      match rest with
      | [] => c :: rest
      | d :: rest2 => if d = '\n' then c :: rest else chompInlineBody rest2
    else chompInlineBody rest

/-- `_INLINE_DOLLAR_MATH_RE` (`\$(?:\\.|[^$\\])*\$`) at the head of `t`. -/
def inlineMathAt (t : Text) : Option Text :=
  match chopLit ['$'] t with
  | none => none
  | some r => chopLit ['$'] (chompInlineBody r)

/-- For `\( ... \)` / `\[ ... \]`: the greedy `(?:\\.|[^\\])*\s*\\op` body
matches up to the LAST escape-chain-aligned `\op`; `lastCloseAfter op t`
returns the remainder after it (escape pairs `\\c` are consumed together,
exactly as the regex engine's backtracking resolves the pattern). -/
def lastCloseAfter (op : Char) : Text → Option Text
  | [] => none
  | c :: rest =>
    if c = '\\' then
      match rest with
      | [] => none
      | d :: rest2 =>
        if d = op then
          match lastCloseAfter op rest2 with
          | some r => some r
          | none => some rest2
        else lastCloseAfter op rest2
    else lastCloseAfter op rest

/-- `_PAREN_MATH_RE` (`\\\((?:\\.|[^\\])*\s*\\\)`, DOTALL) at the head of `t`. -/
def parenMathAt (t : Text) : Option Text :=
  match chopLit ['\\', '('] t with
  | none => none
  | some r => lastCloseAfter ')' r

/-- `_BRACKET_MATH_RE` (`\\\[(?:\\.|[^\\])*\s*\\\]`, DOTALL) at the head of `t`. -/
def bracketMathAt (t : Text) : Option Text :=
  match chopLit ['\\', '['] t with
  | none => none
  | some r => lastCloseAfter ']' r

/-! ### Drop-command removal (`_DROP_COMMANDS_RE`) -/

/-- The fixed command-name tuple `_DROP_COMMANDS`, in source order (the
regex alternation tries them left to right). -/
def dropCommandNames : List Text :=
  ["cite", "citet", "citep", "citeauthor", "citeyear", "ref", "eqref",
   "pageref", "autoref", "cref", "Cref", "label", "url", "href",
   "footnote"].map String.data

/-- `\*?`: consume an optional star. -/
def starChop (r : Text) : Text :=
  match r with
  | '*' :: rest => rest
  | _ => r

/-- `(?:\s*\[[^\]]*\])?`: consume an optional `[...]` option block.  When
there is no `[` after the whitespace, or no closing `]`, the group is
skipped and the position is unchanged (the regex engine then retries what
follows from there). -/
def optBracketChop (r1 : Text) : Text :=
  match skipWS r1 with
  | '[' :: rest =>
    match findAfterChar ']' rest with
    | some r2 => r2
    | none => r1
  | _ => r1

/-- After a drop-command name: `\*?(?:\s*\[[^\]]*\])?\s*\{[^}]*\}`. -/
def dropCmdArgTail (r : Text) : Option Text :=
  match skipWS (optBracketChop (starChop r)) with
  | '{' :: rest => findAfterChar '}' rest
  | _ => none

/-- Try each drop-command name, in order, with the full tail pattern. -/
def dropCmdGo : List Text → Text → Option Text
  | [], _ => none
  | n :: ns, t =>
    match chopLit ('\\' :: n) t with
    | some r =>
      match dropCmdArgTail r with
      | some r2 => some r2
      | none => dropCmdGo ns t
    | none => dropCmdGo ns t

/-- `_DROP_COMMANDS_RE` at the head of `t`. -/
def dropCmdAt (t : Text) : Option Text := dropCmdGo dropCommandNames t

/-! ### Begin/end tag removal (`_BEGIN_END_TAG_RE`) -/

/-- After `\begin{` or `\end{`: `[^}]+\}` (at least one non-brace character,
then up to the first closing brace). -/
def beginEndBodyAt : Text → Option Text
  | [] => none
  | c :: rest => if c = '}' then none else findAfterChar '}' rest

/-- `_BEGIN_END_TAG_RE` (`\\(?:begin|end)\{[^}]+\}`) at the head of `t`. -/
def beginEndTagAt (t : Text) : Option Text :=
  match chopLit ['\\', 'b', 'e', 'g', 'i', 'n', '{'] t with
  | some r => beginEndBodyAt r
  | none =>
    match chopLit ['\\', 'e', 'n', 'd', '{'] t with
    | some r => beginEndBodyAt r
    | none => none

/-! ### Generic command removal (`_LATEX_COMMAND_RE`) -/

/-- `_LATEX_COMMAND_RE` (`\\[a-zA-Z@]+[*]?(?:\s*\[[^\]]*\])?`) at the head
of `t`; the trailing `{...}` argument, if any, is NOT consumed. -/
def cmdAt (t : Text) : Option Text :=
  match t with
  | '\\' :: c :: rest =>
    if isCmdNameChar c then
      some (optBracketChop (starChop (List.dropWhile isCmdNameChar rest)))
    else none
  | _ => none

/-! ### Every matcher consumes at least one character and returns a suffix -/

/-- A matcher is shrinking when a successful match leaves a strictly
shorter suffix of its input. -/
def Shrinking (m : Text → Option Text) : Prop :=
  ∀ t r, m t = some r → r.length < t.length ∧ r <:+ t

/-! ### The generic `re.sub(pattern, ' ', text)` scanner

`subSpaceF` is fuelled so that it is structurally recursive (hence fully
computable by the kernel); since every matcher consumes at least one
character, fuel equal to the text length always suffices, which is what
the wrapper `subSpace` supplies. -/

def subSpaceF (m : Text → Option Text) : Nat → Text → Text
  | _, [] => []
  | 0, c :: rest => c :: rest
  | fuel + 1, c :: rest =>
    match m (c :: rest) with
    | some r => ' ' :: subSpaceF m fuel r
    | none => c :: subSpaceF m fuel rest

/-- Replace every (leftmost, non-overlapping) match of `m` by one space. -/
def subSpace (m : Text → Option Text) (t : Text) : Text := subSpaceF m t.length t

/-! ### The removal stages of the pipeline -/

def removeMathEnvironments (t : Text) : Text := subSpace mathEnvMatchAt t
def removeDisplayMath (t : Text) : Text := subSpace displayMathAt t
def removeInlineMath (t : Text) : Text := subSpace inlineMathAt t
def removeParenMath (t : Text) : Text := subSpace parenMathAt t
def removeBracketMath (t : Text) : Text := subSpace bracketMathAt t

/-- `_remove_math`: the five math stages in source order. -/
def removeMath (t : Text) : Text :=
  removeBracketMath (removeParenMath (removeInlineMath (removeDisplayMath
    (removeMathEnvironments t))))

/-- `_remove_drop_commands`. -/
def removeDropCommands (t : Text) : Text := subSpace dropCmdAt t

/-- `_remove_begin_end_tags`. -/
def removeBeginEndTags (t : Text) : Text := subSpace beginEndTagAt t

/-- `_remove_commands_keep_text`. -/
def removeCommandsKeepText (t : Text) : Text := subSpace cmdAt t

/-- `_cleanup_braces_and_controls` replaces every `{`, `}`, `~`, `\` by a
space (four successive single-character `str.replace` calls). -/
def cleanupChar (c : Char) : Char :=
  if c = '{' || c = '}' || c = '~' || c = '\\' then ' ' else c

def cleanupBracesAndControls (t : Text) : Text := t.map cleanupChar

/-! ### Tokenization (`_TOKEN_RE.findall` + lowercasing)

`_TOKEN_RE` is `[A-Za-z]+(?:'[A-Za-z]+)?`: a maximal letter run, optionally
followed by one apostrophe and a further letter run (the optional group is
taken only when the apostrophe is directly followed by a letter).  Again a
fuelled, structurally recursive scanner; every step consumes at least one
character, so fuel equal to the text length suffices. -/

def tokenizeF : Nat → Text → List Text
  | _, [] => []
  | 0, _ :: _ => []
  | fuel + 1, c :: rest =>
    if isAsciiLetter c then
      match List.dropWhile isAsciiLetter rest with
      | '\'' :: d :: r2 =>
        if isAsciiLetter d then
          ((c :: List.takeWhile isAsciiLetter rest) ++
              '\'' :: d :: List.takeWhile isAsciiLetter r2)
            :: tokenizeF fuel (List.dropWhile isAsciiLetter r2)
        else (c :: List.takeWhile isAsciiLetter rest)
            :: tokenizeF fuel (List.dropWhile isAsciiLetter rest)
      | _ => (c :: List.takeWhile isAsciiLetter rest)
          :: tokenizeF fuel (List.dropWhile isAsciiLetter rest)
    else tokenizeF fuel rest

/-- `_TOKEN_RE.findall`. -/
def tokenize (t : Text) : List Text := tokenizeF t.length t

/-- `extract_tokens_from_latex` (identical in `main.py` and
`latex_tokens.py`): the full pipeline, stages applied in source order. -/
def extract_tokens_from_latex (tex : Text) : List Text :=
  let t1 := stripComments tex
  let t2 := removeMath t1
  let t3 := removeDropCommands t2
  let t4 := removeBeginEndTags t3
  let t5 := removeCommandsKeepText t4
  let t6 := cleanupBracesAndControls t5
  (tokenize t6).map (fun tok => tok.map Char.toLower)

/-! ### The frequency counter (`count_words` in `counting.py` / `main.py`)

`collections.Counter(tokens)` is an insertion-ordered map from token to
occurrence count (keys in order of first occurrence);
`Counter.most_common(n)` returns the items sorted by count descending,
stably (ties keep insertion order, via `heapq.nlargest` / stable `sorted`),
truncated to `n`; for `n <= 0` it returns `[]`. -/

/-- Distinct elements in order of first occurrence (`seen` accumulates the
keys already emitted), i.e. the key order of `Counter(tokens)`. -/
def dedupFirstGo (seen : List Text) : List Text → List Text
  | [] => []
  | x :: xs =>
    if x ∈ seen then dedupFirstGo seen xs
    else x :: dedupFirstGo (x :: seen) xs

def dedupFirst (l : List Text) : List Text := dedupFirstGo [] l

/-- `Counter(tokens).items()`: first-occurrence-ordered keys with counts. -/
def counterItems (tokens : List Text) : List (Text × Nat) :=
  (dedupFirst tokens).map (fun x => (x, tokens.count x))

/-- Stable insertion (descending by count): skip over strictly larger
counts, insert before the first entry with a smaller-or-equal count. -/
def insertDesc (p : Text × Nat) : List (Text × Nat) → List (Text × Nat)
  | [] => [p]
  | q :: qs => if p.2 < q.2 then q :: insertDesc p qs else p :: q :: qs

/-- Stable sort by count descending (insertion sort, processing the items
left to right so that earlier items precede equal-count later items). -/
def sortByCountDesc : List (Text × Nat) → List (Text × Nat)
  | [] => []
  | p :: ps => insertDesc p (sortByCountDesc ps)

/-- `Counter(tokens).most_common(n)` (with Python `int` argument). -/
def most_common (tokens : List Text) (n : Int) : List (Text × Nat) :=
  if n < 0 then [] else (sortByCountDesc (counterItems tokens)).take n.toNat

/-- `count_words(tokens, top_n)` (identical in `counting.py` and
`main.py`): `(sum(counter.values()), len(counter),
counter.most_common(top_n))`.  It performs no validation of `top_n`. -/
def count_words (tokens : List Text) (top_n : Int) :
    Nat × Nat × List (Text × Nat) :=
  (((counterItems tokens).map Prod.snd).sum, (counterItems tokens).length,
    most_common tokens top_n)

/-! ### Writers (`writers.py` / `main.py`) -/

/-- `write_words_txt`: the content written to `words.txt`, namely
`'\n'.join(tokens) + '\n'` (the path handling/mkdir is not modelled). -/
def write_words_txt (tokens : List Text) : Text :=
  joinNL tokens ++ ['\n']

/-! ### The two CLI entry points

`main.py`'s `main` and `latex_wc/cli.py`'s `main` are modelled as pure
functions from an abstract view of the file system to an exit code, the
ordered list of file-I/O events performed, and the report summary printed
to stdout (`none` when the run exits before printing a report). -/

inductive IOEvent
  /-- A file-system existence/metadata check of the input path. -/
  | statPath
  /-- Reading (or attempting to read) an input document. -/
  | readDoc
  /-- Writing the output artifacts. -/
  | writeOut
deriving DecidableEq

structure RunResult where
  exitCode : Nat
  ioTrace : List IOEvent
  report : Option (Nat × Nat × List (Text × Nat))
deriving DecidableEq

structure PyArgs where
  top : Int
  minLen : Int
  outDirSet : Bool

structure PyFs where
  present : Bool
  isTexSuffix : Bool
  content : Text

/-- The `--min-len` filter (`if args.min_len > 1: keep len(t) >= min_len`). -/
def applyMinLen (minLen : Int) (tokens : List Text) : List Text :=
  if 1 < minLen then tokens.filter (fun t => minLen ≤ (t.length : Int)) else tokens

/-- `main.py`'s `main`: note the order of its checks — document existence
and `.tex` suffix are checked BEFORE `--top`/`--min-len` validation, and
there is no zero-token check (a zero-count report is printed, exit 0).
The read is assumed to succeed (an `OSError` would propagate uncaught). -/
def mainPy (args : PyArgs) (fs : PyFs) : RunResult :=
  if !fs.present then ⟨2, [IOEvent.statPath], none⟩
  else if !fs.isTexSuffix then ⟨2, [IOEvent.statPath], none⟩
  else if args.top ≤ 0 then ⟨2, [IOEvent.statPath], none⟩
  else if args.minLen ≤ 0 then ⟨2, [IOEvent.statPath], none⟩
  else
    let tokens := applyMinLen args.minLen (extract_tokens_from_latex fs.content)
    ⟨0, [IOEvent.statPath, IOEvent.readDoc] ++
        (if args.outDirSet then [IOEvent.writeOut] else []),
      some (count_words tokens args.top)⟩

/-- The resolved input of `cli.py` after path resolution: a missing path, a
file without `.tex` suffix, a single `.tex` file (whose read may fail with
`OSError`, modelled by `none`), or a directory with its discovered `.tex`
files in sorted order. -/
inductive CliInput
  | notFound
  | fileNotTex
  | file (content : Option Text)
  | dir (files : List (Option Text))

/-- The token-aggregation loop of `cli.py`: unreadable files are skipped,
each readable file contributes its (min-len filtered) extracted tokens. -/
def cliGatherTokens (minLen : Int) (files : List (Option Text)) : List Text :=
  files.foldl (fun acc f =>
    match f with
    | none => acc
    | some content => acc ++ applyMinLen minLen (extract_tokens_from_latex content)) []

def readTrace (files : List (Option Text)) : List IOEvent :=
  files.map (fun _ => IOEvent.readDoc)

/-- The tail of `cli.py`'s `main` after token aggregation: zero tokens is a
fatal error (exit 2, nothing printed); otherwise the report is printed and
the optional artifacts written (a write failure exits 2 after the report
was already printed). -/
def finishCli (top : Int) (tokens : List Text) (outDirSet outWriteOk : Bool)
    (trace : List IOEvent) : RunResult :=
  if tokens = [] then ⟨2, trace, none⟩
  else
    if outDirSet then
      if outWriteOk then ⟨0, trace ++ [IOEvent.writeOut], some (count_words tokens top)⟩
      else ⟨2, trace ++ [IOEvent.writeOut], some (count_words tokens top)⟩
    else ⟨0, trace, some (count_words tokens top)⟩

/-- `cli.py`'s `main`: `--top`/`--min-len` are validated FIRST, before the
input path is even resolved, so a validation failure performs no file I/O. -/
def mainCli (top minLen : Int) (outDirSet outWriteOk : Bool)
    (inp : CliInput) : RunResult :=
  if top ≤ 0 then ⟨2, [], none⟩
  else if minLen ≤ 0 then ⟨2, [], none⟩
  else
    match inp with
    | CliInput.notFound => ⟨2, [IOEvent.statPath], none⟩
    | CliInput.fileNotTex => ⟨2, [IOEvent.statPath], none⟩
    | CliInput.file c =>
      finishCli top (cliGatherTokens minLen [c]) outDirSet outWriteOk
        (IOEvent.statPath :: readTrace [c])
    | CliInput.dir files =>
      if files = [] then ⟨2, [IOEvent.statPath], none⟩
      else
        finishCli top (cliGatherTokens minLen files) outDirSet outWriteOk
          (IOEvent.statPath :: readTrace files)

/-! ### Predicates used in specifications -/

/-- No line-boundary characters (`str.splitlines` would keep `t` as one
line). -/
def BreakFree (t : Text) : Prop := ∀ c ∈ t, isLineBreak c = false

/-- No ASCII letters at all. -/
def LetterFree (t : Text) : Prop := ∀ c ∈ t, isAsciiLetter c = false

/-- A non-empty word of lower-case ASCII letters. -/
def LowerWord (w : Text) : Prop := w ≠ [] ∧ ∀ c ∈ w, isLowerAZ c = true

/-- The character just before the end of `a`, for a scan that started with
`prev` just before `a` (used to state the `(?<!\\)` look-behind). -/
def lastOr (prev : Option Char) : Text → Option Char
  | [] => prev
  | c :: a => lastOr (some c) a

/-- Every `%` in the text is immediately preceded by a backslash (`prev` is
the character before the current position). -/
def noUnescapedPct : Option Char → Text → Bool
  | _, [] => true
  | prev, c :: rest =>
    if c = '%' then prev = some '\\' && noUnescapedPct (some c) rest
    else noUnescapedPct (some c) rest

/-- The shape required of every extracted token by the specification: a
non-empty run of lower-case ASCII letters, optionally followed by a single
apostrophe and a further non-empty run of lower-case ASCII letters. -/
def validToken (t : Text) : Bool :=
  match List.dropWhile isLowerAZ t with
  | [] => decide (List.takeWhile isLowerAZ t ≠ [])
  | '\'' :: rest =>
    decide (List.takeWhile isLowerAZ t ≠ []) && decide (rest ≠ []) &&
      rest.all isLowerAZ
  | _ => false

/-- The index of the first occurrence of `x` (first-seen position). -/
def firstIdx (x : Text) : List Text → Nat
  | [] => 0
  | y :: l => if y = x then 0 else firstIdx x l + 1

/-- The aggregate token list a `cli.py` run works with, given its resolved
input. -/
def cliTokensOf (minLen : Int) : CliInput → List Text
  | CliInput.file c => cliGatherTokens minLen [c]
  | CliInput.dir files => cliGatherTokens minLen files
  | _ => []

/-! ### Lemmas -/

theorem chopLit_eq_append : ∀ {p t r : Text}, chopLit p t = some r → t = p ++ r
  | [], _, _, h => by simpa [chopLit] using Option.some.inj h
  | _ :: _, [], _, h => by simp [chopLit] at h
  | p :: ps, c :: cs, r, h => by
    by_cases hc : c = p
    · simp only [chopLit, if_pos hc] at h
      simpa [hc] using chopLit_eq_append h
    · simp [chopLit, hc] at h

theorem chopLit_length {p t r : Text} (h : chopLit p t = some r) :
    t.length = p.length + r.length := by
  rw [chopLit_eq_append h, List.length_append]

theorem chopLit_suffix {p t r : Text} (h : chopLit p t = some r) : r <:+ t := by
  exact ⟨p, (chopLit_eq_append h).symm⟩

theorem chopLit_self : ∀ (p t : Text), chopLit p (p ++ t) = some t
  | [], t => rfl
  | c :: ps, t => by simp [chopLit, chopLit_self ps t]

theorem skipWS_suffix : ∀ t : Text, skipWS t <:+ t
  | [] => List.suffix_rfl
  | c :: rest => by
    by_cases h : isPySpace c
    · simpa [skipWS, h] using (skipWS_suffix rest).trans (List.suffix_cons c rest)
    · simp [skipWS, h]

theorem skipWS_length (t : Text) : (skipWS t).length ≤ t.length :=
  (skipWS_suffix t).length_le

theorem findAfterChar_suffix : ∀ {t r : Text}, findAfterChar ch t = some r → r <:+ t
  | [], _, h => by simp [findAfterChar] at h
  | c :: rest, r, h => by
    by_cases hc : c = ch
    · simp only [findAfterChar, if_pos hc] at h
      exact (Option.some.inj h) ▸ List.suffix_cons c rest
    · simp only [findAfterChar, if_neg hc] at h
      exact (findAfterChar_suffix h).trans (List.suffix_cons c rest)

theorem findAfterChar_length : ∀ {t r : Text}, findAfterChar ch t = some r →
    r.length < t.length
  | [], _, h => by simp [findAfterChar] at h
  | c :: rest, r, h => by
    by_cases hc : c = ch
    · simp only [findAfterChar, if_pos hc] at h
      simp [← Option.some.inj h]
    · simp only [findAfterChar, if_neg hc] at h
      exact Nat.lt_trans (findAfterChar_length h) (Nat.lt_succ_self rest.length)

theorem mathTagAt_shrinks {kw : Text} : ∀ {names : List Text} {t r : Text},
    mathTagAt kw names t = some r → r.length < t.length ∧ r <:+ t := by
  intro names
  induction names with
  | nil => intro t r h; simp [mathTagAt] at h
  | cons n ns ih =>
    intro t r h
    simp only [mathTagAt] at h
    cases hc : chopLit (envTagPat kw n) t with
    | some r0 =>
      rw [hc] at h
      injection h with h
      subst h
      refine ⟨?_, chopLit_suffix hc⟩
      have hl := chopLit_length hc
      simp [envTagPat] at hl
      omega
    | none => rw [hc] at h; exact ih h

theorem findMathEnd_shrinks : ∀ {t r : Text},
    findMathEnd t = some r → r.length < t.length ∧ r <:+ t := by
  intro t
  induction t with
  | nil => intro r h; simp [findMathEnd] at h
  | cons c rest ih =>
    intro r h
    simp only [findMathEnd] at h
    cases hm : mathTagAt kwEnd mathEnvNames (c :: rest) with
    | some r0 =>
      rw [hm] at h
      injection h with h
      subst h
      exact mathTagAt_shrinks hm
    | none =>
      rw [hm] at h
      obtain ⟨hlt, hsuf⟩ := ih h
      exact ⟨Nat.lt_trans hlt (Nat.lt_succ_self _), hsuf.trans (List.suffix_cons c rest)⟩

theorem mathEnvMatchAt_shrinking : Shrinking mathEnvMatchAt := by
  intro t r h
  simp only [mathEnvMatchAt] at h
  cases hb : mathTagAt kwBegin mathEnvNames t with
  | none => rw [hb] at h; cases h
  | some r0 =>
    rw [hb] at h
    obtain ⟨hl0, hs0⟩ := mathTagAt_shrinks hb
    obtain ⟨hl1, hs1⟩ := findMathEnd_shrinks h
    exact ⟨Nat.lt_trans hl1 hl0, hs1.trans hs0⟩

theorem chompDisplayBody_suffix (t : Text) : chompDisplayBody t <:+ t := by
  have H : ∀ (n : Nat) (t : Text), t.length ≤ n → chompDisplayBody t <:+ t := by
    intro n
    induction n with
    | zero =>
      intro t ht
      have : t = [] := List.length_eq_zero.mp (Nat.le_zero.mp ht)
      subst this
      simp [chompDisplayBody]
    | succ n ih =>
      intro t ht
      cases t with
      | nil => simp [chompDisplayBody]
      | cons c rest =>
        by_cases h1 : c = '$'
        · subst h1
          unfold chompDisplayBody
          simp
        · by_cases h2 : c = '\\'
          · subst h2
            cases rest with
            | nil =>
              unfold chompDisplayBody
              simp
            | cons d rest2 =>
              show chompDisplayBody rest2 <:+ '\\' :: d :: rest2
              simp only [List.length_cons] at ht
              exact (ih rest2 (by omega)).trans
                ((List.suffix_cons d rest2).trans (List.suffix_cons '\\' (d :: rest2)))
          · unfold chompDisplayBody
            simp only [if_neg h1, if_neg h2]
            simp only [List.length_cons] at ht
            exact (ih rest (by omega)).trans (List.suffix_cons c rest)
  exact H t.length t le_rfl

theorem chompInlineBody_suffix (t : Text) : chompInlineBody t <:+ t := by
  have H : ∀ (n : Nat) (t : Text), t.length ≤ n → chompInlineBody t <:+ t := by
    intro n
    induction n with
    | zero =>
      intro t ht
      have : t = [] := List.length_eq_zero.mp (Nat.le_zero.mp ht)
      subst this
      simp [chompInlineBody]
    | succ n ih =>
      intro t ht
      cases t with
      | nil => simp [chompInlineBody]
      | cons c rest =>
        by_cases h1 : c = '$'
        · subst h1
          unfold chompInlineBody
          simp
        · by_cases h2 : c = '\\'
          · subst h2
            cases rest with
            | nil =>
              unfold chompInlineBody
              simp
            | cons d rest2 =>
              by_cases h3 : d = '\n'
              · subst h3
                unfold chompInlineBody
                simp
              · have e : chompInlineBody ('\\' :: d :: rest2) = chompInlineBody rest2 := by
                  rw [chompInlineBody.eq_def]
                  simp [h3]
                rw [e]
                simp only [List.length_cons] at ht
                exact (ih rest2 (by omega)).trans
                  ((List.suffix_cons d rest2).trans (List.suffix_cons '\\' (d :: rest2)))
          · have e : chompInlineBody (c :: rest) = chompInlineBody rest := by
              rw [chompInlineBody.eq_def]
              simp [h1, h2]
            rw [e]
            simp only [List.length_cons] at ht
            exact (ih rest (by omega)).trans (List.suffix_cons c rest)
  exact H t.length t le_rfl

theorem displayMathAt_shrinking : Shrinking displayMathAt := by
  intro t r h
  simp only [displayMathAt] at h
  cases h1 : chopLit ['$', '$'] t with
  | none => rw [h1] at h; cases h
  | some r0 =>
    rw [h1] at h
    have hs : r <:+ chompDisplayBody r0 := chopLit_suffix h
    have hs2 : chompDisplayBody r0 <:+ r0 := chompDisplayBody_suffix r0
    refine ⟨?_, (hs.trans hs2).trans (chopLit_suffix h1)⟩
    have l1 := chopLit_length h1
    have l2 := chopLit_length h
    have l0 : (chompDisplayBody r0).length ≤ r0.length := hs2.length_le
    simp at l1 l2
    omega

theorem inlineMathAt_shrinking : Shrinking inlineMathAt := by
  intro t r h
  simp only [inlineMathAt] at h
  cases h1 : chopLit ['$'] t with
  | none => rw [h1] at h; cases h
  | some r0 =>
    rw [h1] at h
    have hs : r <:+ chompInlineBody r0 := chopLit_suffix h
    have hs2 : chompInlineBody r0 <:+ r0 := chompInlineBody_suffix r0
    refine ⟨?_, (hs.trans hs2).trans (chopLit_suffix h1)⟩
    have l1 := chopLit_length h1
    have l2 := chopLit_length h
    have l0 : (chompInlineBody r0).length ≤ r0.length := hs2.length_le
    simp at l1 l2
    omega

theorem lastCloseAfter_shrinks {op : Char} {t r : Text}
    (h : lastCloseAfter op t = some r) : r.length < t.length ∧ r <:+ t := by
  have H : ∀ (n : Nat) (t r : Text), t.length ≤ n → lastCloseAfter op t = some r →
      r.length < t.length ∧ r <:+ t := by
    intro n
    induction n with
    | zero =>
      intro t r ht h
      have : t = [] := List.length_eq_zero.mp (Nat.le_zero.mp ht)
      subst this
      simp [lastCloseAfter] at h
    | succ n ih =>
      intro t r ht h
      cases t with
      | nil => simp [lastCloseAfter] at h
      | cons c rest =>
        simp only [List.length_cons] at ht
        by_cases h1 : c = '\\'
        · subst h1
          cases rest with
          | nil =>
            unfold lastCloseAfter at h
            simp at h
          | cons d rest2 =>
            by_cases h2 : d = op
            · subst h2
              have e : lastCloseAfter d ('\\' :: d :: rest2) =
                  match lastCloseAfter d rest2 with
                  | some r => some r
                  | none => some rest2 := by
                rw [lastCloseAfter.eq_def]
                simp
              rw [e] at h
              cases hrec : lastCloseAfter d rest2 with
              | some r0 =>
                rw [hrec] at h
                injection h with h
                obtain ⟨hl, hs⟩ := ih rest2 r0 (by simp at ht; omega) hrec
                subst h
                exact ⟨by simp only [List.length_cons]; omega,
                  (hs.trans (List.suffix_cons d rest2)).trans
                    (List.suffix_cons '\\' (d :: rest2))⟩
              | none =>
                rw [hrec] at h
                injection h with h
                subst h
                exact ⟨by simp only [List.length_cons]; omega,
                  (List.suffix_cons d rest2).trans (List.suffix_cons '\\' (d :: rest2))⟩
            · have e : lastCloseAfter op ('\\' :: d :: rest2) = lastCloseAfter op rest2 := by
                rw [lastCloseAfter.eq_def]
                simp [h2]
              rw [e] at h
              obtain ⟨hl, hs⟩ := ih rest2 r (by simp at ht; omega) h
              exact ⟨by simp only [List.length_cons]; omega,
                (hs.trans (List.suffix_cons d rest2)).trans
                  (List.suffix_cons '\\' (d :: rest2))⟩
        · have e : lastCloseAfter op (c :: rest) = lastCloseAfter op rest := by
            rw [lastCloseAfter.eq_def]
            simp [h1]
          rw [e] at h
          obtain ⟨hl, hs⟩ := ih rest r (by omega) h
          exact ⟨by simp only [List.length_cons]; omega, hs.trans (List.suffix_cons c rest)⟩
  exact H t.length t r le_rfl h

theorem parenMathAt_shrinking : Shrinking parenMathAt := by
  intro t r h
  simp only [parenMathAt] at h
  cases h1 : chopLit ['\\', '('] t with
  | none => rw [h1] at h; cases h
  | some r0 =>
    rw [h1] at h
    obtain ⟨hl, hs⟩ := lastCloseAfter_shrinks h
    have l1 := chopLit_length h1
    simp at l1
    exact ⟨by omega, hs.trans (chopLit_suffix h1)⟩

theorem bracketMathAt_shrinking : Shrinking bracketMathAt := by
  intro t r h
  simp only [bracketMathAt] at h
  cases h1 : chopLit ['\\', '['] t with
  | none => rw [h1] at h; cases h
  | some r0 =>
    rw [h1] at h
    obtain ⟨hl, hs⟩ := lastCloseAfter_shrinks h
    have l1 := chopLit_length h1
    simp at l1
    exact ⟨by omega, hs.trans (chopLit_suffix h1)⟩

theorem starChop_suffix (r : Text) : starChop r <:+ r := by
  unfold starChop
  split
  · exact List.suffix_cons _ _
  · exact List.suffix_rfl

theorem optBracketChop_suffix (r1 : Text) : optBracketChop r1 <:+ r1 := by
  unfold optBracketChop
  split
  · next rest heq =>
    split
    · next r2 h2 =>
      exact ((findAfterChar_suffix h2).trans
        ((List.suffix_cons '[' rest).trans (heq ▸ skipWS_suffix r1)))
    · exact List.suffix_rfl
  · exact List.suffix_rfl

theorem dropCmdArgTail_facts {r r2 : Text} (h : dropCmdArgTail r = some r2) :
    r2.length < r.length ∧ r2 <:+ r := by
  unfold dropCmdArgTail at h
  split at h
  · next rest heq =>
    have hsw : skipWS (optBracketChop (starChop r)) <:+ r :=
      (skipWS_suffix _).trans ((optBracketChop_suffix _).trans (starChop_suffix r))
    rw [heq] at hsw
    have hrest : rest <:+ r := (List.suffix_cons '{' rest).trans hsw
    constructor
    · have := findAfterChar_length h
      have := hsw.length_le
      simp at *
      omega
    · exact (findAfterChar_suffix h).trans hrest
  · cases h

theorem dropCmdGo_shrinks : ∀ {names : List Text} {t r : Text},
    dropCmdGo names t = some r → r.length < t.length ∧ r <:+ t := by
  intro names
  induction names with
  | nil => intro t r h; simp [dropCmdGo] at h
  | cons n ns ih =>
    intro t r h
    simp only [dropCmdGo] at h
    split at h
    · next r0 hc =>
      split at h
      · next r2 ht =>
        injection h with h
        subst h
        obtain ⟨hl, hs⟩ := dropCmdArgTail_facts ht
        have l1 := chopLit_length hc
        simp at l1
        exact ⟨by omega, hs.trans (chopLit_suffix hc)⟩
      · exact ih h
    · exact ih h

theorem dropCmdAt_shrinking : Shrinking dropCmdAt := by
  intro t r h
  exact dropCmdGo_shrinks h

theorem beginEndBodyAt_facts : ∀ {r r2 : Text}, beginEndBodyAt r = some r2 →
    r2.length < r.length ∧ r2 <:+ r := by
  intro r r2 h
  cases r with
  | nil => simp [beginEndBodyAt] at h
  | cons c rest =>
    simp only [beginEndBodyAt] at h
    by_cases hc : c = '}'
    · rw [if_pos hc] at h; cases h
    · rw [if_neg hc] at h
      exact ⟨Nat.lt_trans (findAfterChar_length h) (Nat.lt_succ_self _),
        (findAfterChar_suffix h).trans (List.suffix_cons c rest)⟩

theorem beginEndTagAt_shrinking : Shrinking beginEndTagAt := by
  intro t r h
  simp only [beginEndTagAt] at h
  cases h1 : chopLit ['\\', 'b', 'e', 'g', 'i', 'n', '{'] t with
  | some r0 =>
    rw [h1] at h
    obtain ⟨hl, hs⟩ := beginEndBodyAt_facts h
    have l1 := chopLit_length h1
    simp at l1
    exact ⟨by omega, hs.trans (chopLit_suffix h1)⟩
  | none =>
    rw [h1] at h
    cases h2 : chopLit ['\\', 'e', 'n', 'd', '{'] t with
    | some r0 =>
      rw [h2] at h
      obtain ⟨hl, hs⟩ := beginEndBodyAt_facts h
      have l2 := chopLit_length h2
      simp at l2
      exact ⟨by omega, hs.trans (chopLit_suffix h2)⟩
    | none => rw [h2] at h; cases h

theorem cmdAt_shrinking : Shrinking cmdAt := by
  intro t r h
  unfold cmdAt at h
  split at h
  · next c rest =>
    by_cases hc : isCmdNameChar c
    · rw [if_pos hc] at h
      injection h with h
      subst h
      have hsuf : optBracketChop (starChop (List.dropWhile isCmdNameChar rest)) <:+ rest :=
        (optBracketChop_suffix _).trans
          ((starChop_suffix _).trans (List.dropWhile_suffix isCmdNameChar))
      constructor
      · have := hsuf.length_le
        simp
        omega
      · exact hsuf.trans ((List.suffix_cons c rest).trans (List.suffix_cons '\\' (c :: rest)))
    · rw [if_neg hc] at h; cases h
  · cases h

theorem subSpaceF_congr {m : Text → Option Text} (hm : Shrinking m) :
    ∀ (f g : Nat) (t : Text), t.length ≤ f → t.length ≤ g →
      subSpaceF m f t = subSpaceF m g t := by
  intro f
  induction f with
  | zero =>
    intro g t hf _
    have : t = [] := List.length_eq_zero.mp (Nat.le_zero.mp hf)
    subst this
    cases g <;> simp [subSpaceF]
  | succ f ih =>
    intro g t hf hg
    cases t with
    | nil => cases g <;> simp [subSpaceF]
    | cons c rest =>
      cases g with
      | zero => simp at hg
      | succ g =>
        simp only [subSpaceF]
        simp only [List.length_cons] at hf hg
        cases hmt : m (c :: rest) with
        | some r =>
          obtain ⟨hl, _⟩ := hm _ _ hmt
          simp only [List.length_cons] at hl
          show ' ' :: subSpaceF m f r = ' ' :: subSpaceF m g r
          rw [ih g r (by omega) (by omega)]
        | none =>
          show c :: subSpaceF m f rest = c :: subSpaceF m g rest
          rw [ih g rest (by omega) (by omega)]

theorem subSpace_cons_none {m : Text → Option Text} {c : Char} {rest : Text}
    (h : m (c :: rest) = none) : subSpace m (c :: rest) = c :: subSpace m rest := by
  simp [subSpace, List.length_cons, subSpaceF, h]

theorem subSpace_cons_some {m : Text → Option Text} (hm : Shrinking m)
    {c : Char} {rest r : Text} (h : m (c :: rest) = some r) :
    subSpace m (c :: rest) = ' ' :: subSpace m r := by
  obtain ⟨hl, _⟩ := hm _ _ h
  simp only [List.length_cons] at hl
  simp only [subSpace, List.length_cons, subSpaceF, h]
  rw [subSpaceF_congr hm rest.length r.length r (by omega) le_rfl]

/-- A scan with no match anywhere (at no suffix) is the identity. -/
theorem subSpace_eq_self {m : Text → Option Text} :
    ∀ {t : Text}, (∀ s, s <:+ t → m s = none) → subSpace m t = t := by
  intro t
  induction t with
  | nil => intro _; rfl
  | cons c rest ih =>
    intro h
    rw [subSpace_cons_none (h _ List.suffix_rfl)]
    rw [ih (fun s hs => h s (hs.trans (List.suffix_cons c rest)))]

/-- A scan passes over a prefix region in which no match starts. -/
theorem subSpace_append {m : Text → Option Text} :
    ∀ {w t : Text}, (∀ s, s <:+ w → s ≠ [] → m (s ++ t) = none) →
      subSpace m (w ++ t) = w ++ subSpace m t := by
  intro w
  induction w with
  | nil => intro t _; rfl
  | cons c w ih =>
    intro t h
    have h0 : m (c :: (w ++ t)) = none := by
      have := h (c :: w) List.suffix_rfl (by simp)
      simpa using this
    rw [List.cons_append, subSpace_cons_none h0,
      ih (fun s hs hne => h s (hs.trans (List.suffix_cons c w)) hne)]
    rfl

/-- Every character of the output of a scan is a space or a character of
the input. -/
theorem subSpace_chars {m : Text → Option Text} (hm : Shrinking m) :
    ∀ {t : Text} {x : Char}, x ∈ subSpace m t → x = ' ' ∨ x ∈ t := by
  have H : ∀ (n : Nat) (t : Text), t.length ≤ n →
      ∀ x, x ∈ subSpace m t → x = ' ' ∨ x ∈ t := by
    intro n
    induction n with
    | zero =>
      intro t ht x hx
      have : t = [] := List.length_eq_zero.mp (Nat.le_zero.mp ht)
      subst this
      simp [subSpace, subSpaceF] at hx
    | succ n ih =>
      intro t ht x hx
      cases t with
      | nil => simp [subSpace, subSpaceF] at hx
      | cons c rest =>
        simp only [List.length_cons] at ht
        cases hmt : m (c :: rest) with
        | some r =>
          rw [subSpace_cons_some hm hmt] at hx
          obtain ⟨hl, hs⟩ := hm _ _ hmt
          simp only [List.length_cons] at hl
          rcases List.mem_cons.mp hx with h | h
          · exact Or.inl h
          · rcases ih r (by omega) x h with h | h
            · exact Or.inl h
            · exact Or.inr (hs.subset h)
        | none =>
          rw [subSpace_cons_none hmt] at hx
          rcases List.mem_cons.mp hx with h | h
          · exact Or.inr (h ▸ List.mem_cons_self c rest)
          · rcases ih rest (by omega) x h with h | h
            · exact Or.inl h
            · exact Or.inr (List.mem_cons_of_mem c h)
  intro t x hx
  exact H t.length t le_rfl x hx

/-! ### Counter lemmas -/

theorem mem_dedupFirstGo {x : Text} : ∀ {l seen : List Text},
    x ∈ dedupFirstGo seen l ↔ x ∈ l ∧ x ∉ seen := by
  intro l
  induction l with
  | nil => intro seen; simp [dedupFirstGo]
  | cons y ys ih =>
    intro seen
    by_cases hy : y ∈ seen
    · rw [dedupFirstGo, if_pos hy, ih]
      constructor
      · rintro ⟨h1, h2⟩
        exact ⟨List.mem_cons_of_mem _ h1, h2⟩
      · rintro ⟨h1, h2⟩
        rcases List.mem_cons.mp h1 with rfl | h1
        · exact absurd hy h2
        · exact ⟨h1, h2⟩
    · rw [dedupFirstGo, if_neg hy]
      simp only [List.mem_cons, ih, List.mem_cons, not_or]
      constructor
      · rintro (rfl | ⟨h1, h2, h3⟩)
        · exact ⟨Or.inl rfl, hy⟩
        · exact ⟨Or.inr h1, h3⟩
      · rintro ⟨rfl | h1, h2⟩
        · exact Or.inl rfl
        · by_cases hxy : x = y
          · exact Or.inl hxy
          · exact Or.inr ⟨h1, hxy, h2⟩

theorem dedupFirst_mem {x : Text} {l : List Text} : x ∈ dedupFirst l ↔ x ∈ l := by
  simp [dedupFirst, mem_dedupFirstGo]

theorem dedupFirstGo_nodup : ∀ {l seen : List Text}, (dedupFirstGo seen l).Nodup := by
  intro l
  induction l with
  | nil => intro seen; simp [dedupFirstGo]
  | cons y ys ih =>
    intro seen
    by_cases hy : y ∈ seen
    · rw [dedupFirstGo, if_pos hy]; exact ih
    · rw [dedupFirstGo, if_neg hy]
      refine List.nodup_cons.mpr ⟨?_, ih⟩
      intro hmem
      exact (mem_dedupFirstGo.mp hmem).2 (List.mem_cons_self y seen)

theorem dedupFirst_nodup (l : List Text) : (dedupFirst l).Nodup :=
  dedupFirstGo_nodup

theorem dedupFirst_toFinset (l : List Text) : (dedupFirst l).toFinset = l.toFinset := by
  ext x
  simp [dedupFirst_mem]

/-- The keys of `dedupFirstGo` appear in order of first occurrence: their
positions of first occurrence are strictly increasing. -/
theorem dedupFirstGo_pairwise_firstIdx : ∀ {l seen : List Text},
    (dedupFirstGo seen l).Pairwise (fun x y => firstIdx x l < firstIdx y l) := by
  intro l
  induction l with
  | nil => intro seen; simp [dedupFirstGo]
  | cons y ys ih =>
    intro seen
    have lift : ∀ {seen' : List Text}, y ∈ seen' →
        (dedupFirstGo seen' ys).Pairwise
          (fun x z => firstIdx x (y :: ys) < firstIdx z (y :: ys)) := by
      intro seen' hy
      refine List.Pairwise.imp_of_mem ?_ (@ih seen')
      intro a b ha hb hab
      have hay : y ≠ a := fun h => (mem_dedupFirstGo.mp ha).2 (h ▸ hy)
      have hby : y ≠ b := fun h => (mem_dedupFirstGo.mp hb).2 (h ▸ hy)
      show firstIdx a (y :: ys) < firstIdx b (y :: ys)
      simp only [firstIdx, if_neg hay, if_neg hby]
      exact Nat.succ_lt_succ hab
    by_cases hy : y ∈ seen
    · rw [dedupFirstGo, if_pos hy]
      exact lift hy
    · rw [dedupFirstGo, if_neg hy]
      refine List.Pairwise.cons ?_ (lift (List.mem_cons_self y seen))
      intro b hb
      have hby : y ≠ b := fun h =>
        (mem_dedupFirstGo.mp hb).2 (h ▸ List.mem_cons_self y seen)
      show firstIdx y (y :: ys) < firstIdx b (y :: ys)
      simp only [firstIdx, if_pos rfl, if_neg hby]
      exact Nat.succ_pos _

theorem dedupFirst_pairwise_firstIdx (l : List Text) :
    (dedupFirst l).Pairwise (fun x y => firstIdx x l < firstIdx y l) :=
  dedupFirstGo_pairwise_firstIdx

theorem sum_map_add (d : List Text) (f g : Text → Nat) :
    (d.map (fun x => f x + g x)).sum = (d.map f).sum + (d.map g).sum := by
  induction d with
  | nil => simp
  | cons a d ih => simp [ih]; omega

theorem sum_map_indicator : ∀ {d : List Text}, d.Nodup → ∀ {y : Text}, y ∈ d →
    (d.map (fun x => if y == x then 1 else 0)).sum = 1 := by
  intro d hd
  induction d with
  | nil => intro y hy; cases hy
  | cons a d ih =>
    intro y hy
    obtain ⟨ha, hd2⟩ := List.nodup_cons.mp hd
    rw [List.map_cons, List.sum_cons]
    rcases List.mem_cons.mp hy with rfl | hy2
    · rw [beq_self_eq_true y]
      have hrest : (d.map (fun x => if y == x then 1 else 0)).sum = 0 := by
        apply List.sum_eq_zero
        intro n hn
        obtain ⟨x, hx, hxe⟩ := List.mem_map.mp hn
        have hxy : (y == x) = false := beq_eq_false_iff_ne.mpr (fun h => ha (h ▸ hx))
        rw [hxy] at hxe
        simpa using hxe.symm
      rw [hrest]
      simp
    · have hay : (y == a) = false := beq_eq_false_iff_ne.mpr (fun h => ha (h ▸ hy2))
      rw [hay, ih hd2 hy2]
      simp

theorem sum_count_nodup {d : List Text} (hd : d.Nodup) :
    ∀ l : List Text, (∀ x ∈ l, x ∈ d) →
      (d.map (fun x => l.count x)).sum = l.length := by
  intro l
  induction l with
  | nil =>
    intro _
    apply List.sum_eq_zero
    intro n hn
    obtain ⟨x, _, hxe⟩ := List.mem_map.mp hn
    simpa using hxe.symm
  | cons y ys ih =>
    intro hcov
    have e : d.map (fun x => (y :: ys).count x) =
        d.map (fun x => ys.count x + if y == x then 1 else 0) :=
      List.map_congr_left (fun x _ => List.count_cons x y ys)
    rw [e, sum_map_add, ih (fun x hx => hcov x (List.mem_cons_of_mem y hx)),
      sum_map_indicator hd (hcov y (List.mem_cons_self y ys)), List.length_cons]

/-- `sum(counter.values()) = len(tokens)`. -/
theorem counterItems_sum (l : List Text) :
    ((counterItems l).map Prod.snd).sum = l.length := by
  have e1 : (counterItems l).map Prod.snd = (dedupFirst l).map (fun x => l.count x) := by
    simp [counterItems, List.map_map, Function.comp]
  rw [e1]
  exact sum_count_nodup (dedupFirst_nodup l) l (fun x hx => dedupFirst_mem.mpr hx)

/-- `len(counter)` is the number of distinct tokens. -/
theorem counterItems_length (l : List Text) :
    (counterItems l).length = l.toFinset.card := by
  rw [counterItems, List.length_map, ← List.toFinset_card_of_nodup (dedupFirst_nodup l),
    dedupFirst_toFinset]

theorem insertDesc_perm (p : Text × Nat) :
    ∀ l : List (Text × Nat), List.Perm (insertDesc p l) (p :: l) := by
  intro l
  induction l with
  | nil => simp [insertDesc]
  | cons q qs ih =>
    rw [insertDesc]
    by_cases h : p.2 < q.2
    · rw [if_pos h]
      exact (ih.cons q).trans (List.Perm.swap p q qs)
    · rw [if_neg h]

theorem sortByCountDesc_perm : ∀ l : List (Text × Nat), List.Perm (sortByCountDesc l) l := by
  intro l
  induction l with
  | nil => simp [sortByCountDesc]
  | cons p ps ih =>
    rw [sortByCountDesc]
    exact (insertDesc_perm p (sortByCountDesc ps)).trans (ih.cons p)

theorem insertDesc_sorted {p : Text × Nat} {l : List (Text × Nat)}
    (hl : l.Pairwise (fun a b => b.2 ≤ a.2)) :
    (insertDesc p l).Pairwise (fun a b => b.2 ≤ a.2) := by
  induction l with
  | nil => simp [insertDesc]
  | cons q qs ih =>
    rw [insertDesc]
    obtain ⟨hq, hqs⟩ := List.pairwise_cons.mp hl
    by_cases h : p.2 < q.2
    · rw [if_pos h]
      refine List.pairwise_cons.mpr ⟨?_, ih hqs⟩
      intro b hb
      rcases List.mem_cons.mp ((insertDesc_perm p qs).mem_iff.mp hb) with rfl | h'
      · exact Nat.le_of_lt h
      · exact hq b h'
    · rw [if_neg h]
      refine List.pairwise_cons.mpr ⟨?_, hl⟩
      intro b hb
      rcases List.mem_cons.mp hb with rfl | h'
      · exact Nat.le_of_not_lt h
      · exact Nat.le_trans (hq b h') (Nat.le_of_not_lt h)

theorem sortByCountDesc_sorted : ∀ l : List (Text × Nat),
    (sortByCountDesc l).Pairwise (fun a b => b.2 ≤ a.2) := by
  intro l
  induction l with
  | nil => simp [sortByCountDesc]
  | cons p ps ih =>
    rw [sortByCountDesc]
    exact insertDesc_sorted ih

/-- Stability of the insertion: among entries with any fixed count `c`, the
insertion of `p` (which the sort performs with all originally-later entries
already placed) puts `p` first, and does not reorder the rest. -/
theorem filter_insertDesc (c : Nat) (p : Text × Nat) :
    ∀ l : List (Text × Nat),
      (insertDesc p l).filter (fun q => q.2 == c) =
        if p.2 == c then p :: l.filter (fun q => q.2 == c)
        else l.filter (fun q => q.2 == c) := by
  intro l
  induction l with
  | nil =>
    by_cases hpc : p.2 = c <;> simp [insertDesc, List.filter_cons, hpc]
  | cons q qs ih =>
    rw [insertDesc]
    by_cases h : p.2 < q.2
    · rw [if_pos h]
      by_cases hpc : p.2 = c
      · have hqc : (q.2 == c) = false := by
          simp only [beq_eq_false_iff_ne, ne_eq]
          omega
        simp only [List.filter_cons, hqc, ih, hpc]
        simp
      · have : (p.2 == c) = false := by simp [hpc]
        simp only [List.filter_cons, ih, this]
        simp
    · rw [if_neg h]
      by_cases hpc : p.2 = c
      · have : (p.2 == c) = true := by simp [hpc]
        simp [List.filter_cons, this]
      · have : (p.2 == c) = false := by simp [hpc]
        simp [List.filter_cons, this]

/-- Stability of the whole sort: the entries with any fixed count keep
their original relative order. -/
theorem filter_sortByCountDesc (c : Nat) : ∀ l : List (Text × Nat),
    (sortByCountDesc l).filter (fun q => q.2 == c) = l.filter (fun q => q.2 == c) := by
  intro l
  induction l with
  | nil => simp [sortByCountDesc]
  | cons p ps ih =>
    rw [sortByCountDesc, filter_insertDesc, List.filter_cons]
    by_cases hpc : p.2 = c
    · have : (p.2 == c) = true := by simp [hpc]
      simp [this, ih]
    · have : (p.2 == c) = false := by simp [hpc]
      simp [this, ih]

theorem nodup_count (d : List Text) (hd : d.Nodup) (x : Text) :
    d.count x = if x ∈ d then 1 else 0 := by
  induction d with
  | nil => simp
  | cons a d ih =>
    obtain ⟨ha, hd2⟩ := List.nodup_cons.mp hd
    rw [List.count_cons]
    by_cases hax : a = x
    · subst hax
      rw [beq_self_eq_true]
      have h0 : d.count a = 0 := List.count_eq_zero.mpr ha
      simp [h0]
    · have hne : (a == x) = false := beq_eq_false_iff_ne.mpr hax
      rw [hne, ih hd2]
      by_cases hx : x ∈ d
      · simp [hx, List.mem_cons]
      · have hnot : x ∉ a :: d := by
          simp only [List.mem_cons, not_or]
          exact ⟨fun h => hax h.symm, hx⟩
        simp [hx, hnot]

theorem perm_count {l1 l2 : List Text} (h : List.Perm l1 l2) (x : Text) :
    l1.count x = l2.count x :=
  h.countP_eq (· == x)

theorem counterItems_map_fst (tokens : List Text) :
    (counterItems tokens).map Prod.fst = dedupFirst tokens := by
  rw [counterItems, List.map_map]
  exact List.map_id _

/-- Claim C3: for every token sequence and `top_n > 0`, `count_words`
returns `total` equal to the length of the input, `unique` equal to the
number of distinct tokens, a ranked list of length `min(top_n, unique)`
sorted by count descending, and — when `top_n ≥ unique` — the ranked list
contains every distinct token exactly once (no padding, no error). -/
theorem c3_count_words_contract (tokens : List Text) (n : Int) (hn : 0 < n) :
    (count_words tokens n).1 = tokens.length ∧
    (count_words tokens n).2.1 = tokens.toFinset.card ∧
    (count_words tokens n).2.2.length = min n.toNat (count_words tokens n).2.1 ∧
    (count_words tokens n).2.2.Pairwise (fun p q => q.2 ≤ p.2) ∧
    ((count_words tokens n).2.1 ≤ n.toNat →
      ∀ x : Text, ((count_words tokens n).2.2.map Prod.fst).count x
        = if x ∈ tokens then 1 else 0) := by
  have hnn : ¬(n < 0) := by omega
  have hmc : most_common tokens n =
      (sortByCountDesc (counterItems tokens)).take n.toNat := by
    rw [most_common, if_neg hnn]
  have hlen : (sortByCountDesc (counterItems tokens)).length =
      (counterItems tokens).length :=
    (sortByCountDesc_perm (counterItems tokens)).length_eq
  refine ⟨counterItems_sum tokens, counterItems_length tokens, ?_, ?_, ?_⟩
  · show (most_common tokens n).length = min n.toNat (counterItems tokens).length
    rw [hmc, List.length_take, hlen]
  · show (most_common tokens n).Pairwise (fun p q => q.2 ≤ p.2)
    rw [hmc]
    exact (sortByCountDesc_sorted (counterItems tokens)).sublist
      (List.take_sublist _ _)
  · intro hle x
    show ((most_common tokens n).map Prod.fst).count x = if x ∈ tokens then 1 else 0
    have htake : (sortByCountDesc (counterItems tokens)).take n.toNat =
        sortByCountDesc (counterItems tokens) :=
      List.take_of_length_le (by rw [hlen]; exact hle)
    rw [hmc, htake]
    have hperm : List.Perm ((sortByCountDesc (counterItems tokens)).map Prod.fst)
        (dedupFirst tokens) := by
      rw [← counterItems_map_fst tokens]
      exact (sortByCountDesc_perm (counterItems tokens)).map Prod.fst
    rw [perm_count hperm x, nodup_count _ (dedupFirst_nodup tokens) x]
    by_cases hx : x ∈ tokens
    · simp [hx, dedupFirst_mem]
    · simp [hx, dedupFirst_mem]

theorem c3_count_words_contract_witness :
    (0 : Int) < 3 ∧
    (count_words [['a'], ['b'], ['b']] 3).1 = [['a'], ['b'], ['b']].length ∧
    (count_words [['a'], ['b'], ['b']] 3).2.1 = [['a'], ['b'], ['b']].toFinset.card :=
  ⟨by decide, (c3_count_words_contract [['a'], ['b'], ['b']] 3 (by decide)).1,
    (c3_count_words_contract [['a'], ['b'], ['b']] 3 (by decide)).2.1⟩

/-- Claim C4: ties in the ranked list are broken by first-seen insertion
order: the concrete tie example from the specification holds, and in
general the equal-count entries of the ranked list form a subsequence of
the counter's items (which list the distinct tokens in strictly increasing
order of first occurrence). -/
theorem c4_tie_break_first_seen :
    count_words [['a'], ['b'], ['b'], ['c'], ['c']] 2
      = (5, 3, [(['b'], 2), (['c'], 2)]) ∧
    (∀ (tokens : List Text) (n : Int) (c : Nat),
      ((count_words tokens n).2.2.filter (fun p => p.2 == c)).Sublist
        ((counterItems tokens).filter (fun p => p.2 == c))) ∧
    (∀ tokens : List Text, (counterItems tokens).map Prod.fst = dedupFirst tokens) ∧
    (∀ tokens : List Text,
      (dedupFirst tokens).Pairwise (fun x y => firstIdx x tokens < firstIdx y tokens)) := by
  refine ⟨by decide, ?_, counterItems_map_fst, dedupFirst_pairwise_firstIdx⟩
  intro tokens n c
  show ((most_common tokens n).filter (fun p => p.2 == c)).Sublist _
  by_cases hn : n < 0
  · rw [most_common, if_pos hn]
    exact List.nil_sublist _
  · rw [most_common, if_neg hn, ← filter_sortByCountDesc c (counterItems tokens)]
    exact List.Sublist.filter _ (List.take_sublist _ _)

/-- Claim C5 counterexample: for `top_n ≤ 0` the frequency counter does
NOT fail — it returns an ordinary result (total and unique as usual, with
an empty ranked list), for both a negative and a zero `top_n`. -/
theorem c5_counterexample_count_words_total_on_nonpositive :
    count_words [['a']] (-3) = (1, 1, []) ∧ count_words [['a']] 0 = (1, 1, []) := by
  constructor <;> decide

/-- Claim C5 (amended): `count_words` performs no validation of `top_n`;
for every `top_n ≤ 0` it returns the usual total and unique counts together
with an empty ranked list (`Counter.most_common` yields `[]` there).  The
`top_n > 0` validation lives in the CLI callers, which exit with code 2
before invoking the counter. -/
theorem c5_amended_count_words_no_guard (tokens : List Text) (n : Int) (h : n ≤ 0) :
    count_words tokens n = (tokens.length, (dedupFirst tokens).length, []) := by
  have h2 : (counterItems tokens).length = (dedupFirst tokens).length := by
    simp [counterItems]
  have h3 : most_common tokens n = [] := by
    by_cases hn : n < 0
    · rw [most_common, if_pos hn]
    · have : n.toNat = 0 := by omega
      rw [most_common, if_neg hn, this, List.take_zero]
  rw [count_words, counterItems_sum tokens, h2, h3]

theorem c5_amended_count_words_no_guard_witness :
    count_words [['a']] 0 = (1, 1, []) :=
  (c5_amended_count_words_no_guard [['a']] 0 (by decide)).trans (by decide)

/-- Claim C10: the math-environment regex does not require the `\begin`
and `\end` names to match: the span `\begin{equation} x \end{align}` is
removed and replaced by a single space exactly like a matched pair, and
the surrounding words survive unjoined. -/
theorem c10_math_env_names_need_not_match :
    removeMathEnvironments ("a \\begin\x7bequation\x7d x \\end\x7balign\x7d b".data)
      = "a   b".data ∧
    extract_tokens_from_latex ("a \\begin\x7bequation\x7d x \\end\x7balign\x7d b".data)
      = ["a".data, "b".data] := by
  constructor <;> decide

/-! ### CLI claims -/

/-- Claim C6 counterexample: with an existing `.tex` document and
`--top 0`, `main.py` exits 2 but its I/O trace is non-empty — the document
existence check (a file-system stat) happens BEFORE the `--top` validation,
so the rejection does not precede all file I/O. -/
theorem c6_counterexample_mainPy_stats_before_validation :
    mainPy ⟨0, 1, false⟩ ⟨true, true, []⟩ = ⟨2, [IOEvent.statPath], none⟩ ∧
    ([IOEvent.statPath] : List IOEvent) ≠ [] := by
  constructor <;> decide

/-- Claim C6 (amended): the `cli.py` entry point rejects `top_n ≤ 0` with
exit code 2 before performing any file I/O (its I/O trace is empty); the
`main.py` entry point also exits 2 on `top_n ≤ 0` when the document exists
and has a `.tex` suffix, but only after the existence check has been
performed. -/
theorem c6_amended_validation_before_io :
    (∀ (top minLen : Int) (oS oO : Bool) (inp : CliInput), top ≤ 0 →
      mainCli top minLen oS oO inp = ⟨2, [], none⟩) ∧
    (∀ (args : PyArgs) (fs : PyFs), args.top ≤ 0 → fs.present = true →
      fs.isTexSuffix = true → mainPy args fs = ⟨2, [IOEvent.statPath], none⟩) := by
  constructor
  · intro top minLen oS oO inp h
    simp [mainCli, h]
  · intro args fs h hp ht
    simp [mainPy, hp, ht, h]

theorem c6_amended_validation_before_io_witness :
    mainCli 0 1 false false (CliInput.file (some [])) = ⟨2, [], none⟩ ∧
    mainPy ⟨0, 1, false⟩ ⟨true, true, []⟩ = ⟨2, [IOEvent.statPath], none⟩ :=
  ⟨c6_amended_validation_before_io.1 0 1 false false _ (by decide),
    c6_amended_validation_before_io.2 ⟨0, 1, false⟩ ⟨true, true, []⟩ (by decide) rfl rfl⟩

/-- Claim C7 counterexample: a readable `.tex` document whose content
(`"123"`) yields zero tokens makes `main.py` print a zero-count report and
exit 0 — not exit 2. -/
theorem c7_counterexample_mainPy_zero_tokens_exit_zero :
    extract_tokens_from_latex ("123".data) = [] ∧
    mainPy ⟨1, 1, false⟩ ⟨true, true, "123".data⟩ =
      ⟨0, [IOEvent.statPath, IOEvent.readDoc], some (0, 0, [])⟩ := by
  constructor <;> decide

/-- Claim C7 (amended): the `cli.py` entry point treats zero tokens from
all readable inputs as fatal and exits 2 without printing a report; the
`main.py` duplicate has no such check and prints a zero-count report with
exit code 0. -/
theorem c7_amended_zero_tokens :
    (∀ (top minLen : Int) (oS oO : Bool) (inp : CliInput), 0 < top → 0 < minLen →
      cliTokensOf minLen inp = [] →
      (mainCli top minLen oS oO inp).exitCode = 2 ∧
      (mainCli top minLen oS oO inp).report = none) ∧
    (∀ (args : PyArgs) (fs : PyFs), 0 < args.top → 0 < args.minLen →
      fs.present = true → fs.isTexSuffix = true →
      applyMinLen args.minLen (extract_tokens_from_latex fs.content) = [] →
      mainPy args fs = ⟨0, [IOEvent.statPath, IOEvent.readDoc] ++
        (if args.outDirSet then [IOEvent.writeOut] else []), some (0, 0, [])⟩) := by
  constructor
  · intro top minLen oS oO inp htop hmin hz
    have h1 : ¬(top ≤ 0) := by omega
    have h2 : ¬(minLen ≤ 0) := by omega
    cases inp with
    | notFound => simp [mainCli, h1, h2]
    | fileNotTex => simp [mainCli, h1, h2]
    | file c =>
      have hz' : cliGatherTokens minLen [c] = [] := hz
      simp [mainCli, h1, h2, finishCli, hz']
    | dir files =>
      have hz' : cliGatherTokens minLen files = [] := hz
      by_cases hf : files = []
      · simp [mainCli, h1, h2, hf]
      · simp [mainCli, h1, h2, hf, finishCli, hz']
  · intro args fs htop hmin hp ht hz
    have h1 : ¬(args.top ≤ 0) := by omega
    have h2 : ¬(args.minLen ≤ 0) := by omega
    have hcw : count_words (applyMinLen args.minLen
        (extract_tokens_from_latex fs.content)) args.top = (0, 0, []) := by
      rw [hz]
      have : most_common [] args.top = [] := by
        rw [most_common]
        by_cases hn : args.top < 0
        · rw [if_pos hn]
        · rw [if_neg hn]
          simp [sortByCountDesc, counterItems, dedupFirst, dedupFirstGo]
      simp [count_words, counterItems, dedupFirst, dedupFirstGo, this]
    simp [mainPy, hp, ht, h1, h2, hcw]

theorem c7_amended_zero_tokens_witness :
    (mainCli 1 1 false false (CliInput.file (some ("123".data)))).exitCode = 2 ∧
    mainPy ⟨1, 1, false⟩ ⟨true, true, "123".data⟩ =
      ⟨0, [IOEvent.statPath, IOEvent.readDoc], some (0, 0, [])⟩ :=
  ⟨(c7_amended_zero_tokens.1 1 1 false false (CliInput.file (some ("123".data)))
      (by decide) (by decide) (by decide)).1,
    c7_amended_zero_tokens.2 ⟨1, 1, false⟩ ⟨true, true, "123".data⟩
      (by decide) (by decide) rfl rfl (by decide)⟩

/-! ### Round-trip of the words.txt writer (C8) -/

theorem mem_joinNL : ∀ {ts : List Text} {c : Char},
    c ∈ joinNL ts → c = '\n' ∨ ∃ t ∈ ts, c ∈ t := by
  intro ts
  induction ts with
  | nil => intro c h; simp [joinNL] at h
  | cons l ls ih =>
    intro c h
    cases ls with
    | nil =>
      right
      exact ⟨l, List.mem_cons_self l [], by simpa [joinNL] using h⟩
    | cons u us =>
      have e : joinNL (l :: u :: us) = l ++ '\n' :: joinNL (u :: us) := rfl
      rw [e] at h
      rcases List.mem_append.mp h with h | h
      · right; exact ⟨l, List.mem_cons_self l (u :: us), h⟩
      · rcases List.mem_cons.mp h with rfl | h
        · left; rfl
        · rcases ih h with h | ⟨t, ht, hc⟩
          · left; exact h
          · right; exact ⟨t, List.mem_cons_of_mem l ht, hc⟩

theorem normalizeCRLF_id : ∀ {t : Text}, '\r' ∉ t → normalizeCRLF t = t
  | [], _ => rfl
  | [_], _ => rfl
  | c :: d :: rest, h => by
    have hc : ¬ c = '\r' := fun e => h (by simp [e])
    have h2 : '\r' ∉ d :: rest := fun hm => h (List.mem_cons_of_mem c hm)
    rw [normalizeCRLF, if_neg hc, normalizeCRLF_id h2]

theorem splitlinesGo_walk : ∀ (w : Text), BreakFree w → ∀ (r acc : Text),
    splitlinesGo (w ++ r) acc = splitlinesGo r (w.reverse ++ acc)
  | [], _, r, acc => by simp
  | c :: w', hw, r, acc => by
    have hc : isLineBreak c = false := hw c (List.mem_cons_self c w')
    have hw' : BreakFree w' := fun x hx => hw x (List.mem_cons_of_mem c hx)
    rw [List.cons_append, splitlinesGo.eq_def]
    simp only [hc, Bool.false_eq_true, if_false]
    rw [splitlinesGo_walk w' hw' r (c :: acc)]
    simp

/-- Claim C8 counterexample: for the EMPTY token sequence the written
content is a single newline, which reads back (newline-split) as one empty
line, not as the empty sequence — so the round trip is not exact for every
token sequence. -/
theorem c8_counterexample_empty_sequence :
    write_words_txt ([] : List Text) = ['\n'] ∧
    splitlines (write_words_txt ([] : List Text)) = [[]] ∧
    ([[]] : List Text) ≠ ([] : List Text) := by
  refine ⟨rfl, ?_, by decide⟩
  decide

/-- Claim C8 (amended): for every NON-EMPTY token sequence whose tokens
contain no line-boundary characters (true of all extracted tokens, which
consist of letters and apostrophes), writing with `write_words_txt` and
reading the content back split on newlines (`str.splitlines`) reproduces
exactly the original sequence in order.  For the empty sequence the content
is one bare newline, which reads back as a single empty line. -/
theorem c8_amended_round_trip : ∀ (ts : List Text), ts ≠ [] →
    (∀ t ∈ ts, BreakFree t) →
    splitlines (write_words_txt ts) = ts := by
  intro ts
  induction ts with
  | nil => intro h _; exact absurd rfl h
  | cons t ts' ih =>
    intro _ hfree
    have hft : BreakFree t := hfree t (List.mem_cons_self t ts')
    have hcr : ∀ u : Text, BreakFree u → '\r' ∉ u := by
      intro u hu hm
      have := hu '\r' hm
      simp [isLineBreak] at this
    cases ts' with
    | nil =>
      have hwne : write_words_txt [t] ≠ [] := by
        simp [write_words_txt]
      have hnocr : '\r' ∉ write_words_txt [t] := by
        intro hm
        rcases List.mem_append.mp hm with hm | hm
        · rcases mem_joinNL hm with h | ⟨u, hu, hcu⟩
          · cases h
          · rcases List.mem_singleton.mp hu with rfl
            exact hcr u (hfree u (List.mem_singleton.mpr rfl)) hcu
        · simp at hm
      rw [splitlines.eq_def]
      split
      · next heq => exact absurd heq hwne
      · next heq =>
        rw [normalizeCRLF_id hnocr]
        show splitlinesGo (write_words_txt [t]) [] = [t]
        have e : write_words_txt [t] = t ++ ['\n'] := rfl
        rw [e, splitlinesGo_walk t hft ['\n'] []]
        rw [splitlinesGo.eq_def]
        simp [isLineBreak]
    | cons u us =>
      have hfree' : ∀ x ∈ u :: us, BreakFree x :=
        fun x hx => hfree x (List.mem_cons_of_mem t hx)
      have ihe : splitlines (write_words_txt (u :: us)) = u :: us :=
        ih (by simp) hfree'
      have hwne : write_words_txt (u :: us) ≠ [] := by
        simp [write_words_txt]
      have hnocr : ∀ vs : List Text, (∀ x ∈ vs, BreakFree x) →
          '\r' ∉ write_words_txt vs := by
        intro vs hvs hm
        rcases List.mem_append.mp hm with hm | hm
        · rcases mem_joinNL hm with h | ⟨v, hv, hcv⟩
          · cases h
          · exact hcr v (hvs v hv) hcv
        · simp at hm
      have e : write_words_txt (t :: u :: us) =
          t ++ '\n' :: write_words_txt (u :: us) := by
        show joinNL (t :: u :: us) ++ ['\n'] = t ++ '\n' :: (joinNL (u :: us) ++ ['\n'])
        have e2 : joinNL (t :: u :: us) = t ++ '\n' :: joinNL (u :: us) := rfl
        rw [e2]
        simp
      rw [splitlines.eq_def]
      split
      · next heq =>
        rw [e] at heq
        simp at heq
      · next heq =>
        rw [normalizeCRLF_id (hnocr _ hfree)]
        show splitlinesGo (write_words_txt (t :: u :: us)) [] = t :: u :: us
        rw [e, splitlinesGo_walk t hft _ []]
        rw [splitlinesGo.eq_def]
        have hne2 : write_words_txt (u :: us) ≠ [] := hwne
        simp only [isLineBreak]
        cases hw : write_words_txt (u :: us) with
        | nil => exact absurd hw hne2
        | cons a as =>
          simp only []
          have : splitlinesGo (a :: as) [] = u :: us := by
            rw [← hw]
            have := ihe
            rw [splitlines.eq_def] at this
            rw [hw] at this
            simp only [] at this
            rw [← hw] at this
            rw [normalizeCRLF_id (hnocr _ hfree')] at this
            exact this
          simp [this]

theorem c8_amended_round_trip_witness :
    splitlines (write_words_txt ["hi".data, "yo".data]) = ["hi".data, "yo".data] :=
  c8_amended_round_trip ["hi".data, "yo".data] (by decide) (by unfold BreakFree; decide)

/-! ### Comment stripping (C2) -/

/-- A line in which every `%` is escaped is left unchanged. -/
theorem stripCommentLineGo_no_unescaped : ∀ (t : Text) (prev : Option Char),
    noUnescapedPct prev t = true → stripCommentLineGo prev t = t := by
  intro t
  induction t with
  | nil => intro prev _; rfl
  | cons c rest ih =>
    intro prev h
    by_cases hc : c = '%'
    · subst hc
      rw [noUnescapedPct, if_pos rfl] at h
      simp only [Bool.and_eq_true] at h
      obtain ⟨h1, h2⟩ := h
      rw [stripCommentLineGo, if_pos rfl, if_pos (by simpa using h1), ih _ h2]
    · rw [noUnescapedPct, if_neg hc] at h
      rw [stripCommentLineGo, if_neg hc, ih _ h]

/-- Everything from the first unescaped `%` to the end of the line is
deleted; what precedes it (which may contain escaped `%`s) is kept. -/
theorem stripCommentLineGo_prefix : ∀ (a : Text) (prev : Option Char) (b : Text),
    noUnescapedPct prev a = true → lastOr prev a ≠ some '\\' →
    stripCommentLineGo prev (a ++ '%' :: b) = a := by
  intro a
  induction a with
  | nil =>
    intro prev b _ hlast
    rw [List.nil_append, stripCommentLineGo, if_pos rfl, if_neg (by simpa [lastOr] using hlast)]
  | cons c a' ih =>
    intro prev b h hlast
    rw [List.cons_append]
    by_cases hc : c = '%'
    · subst hc
      rw [noUnescapedPct, if_pos rfl] at h
      simp only [Bool.and_eq_true] at h
      obtain ⟨h1, h2⟩ := h
      rw [stripCommentLineGo, if_pos rfl, if_pos (by simpa using h1),
        ih _ b h2 (by simpa [lastOr] using hlast)]
    · rw [noUnescapedPct, if_neg hc] at h
      rw [stripCommentLineGo, if_neg hc, ih _ b h (by simpa [lastOr] using hlast)]

/-- A break-free non-empty string is a single line. -/
theorem splitlines_single {t : Text} (hfree : BreakFree t) (hne : t ≠ []) :
    splitlines t = [t] := by
  have hcr : '\r' ∉ t := by
    intro hm
    have := hfree '\r' hm
    simp [isLineBreak] at this
  obtain ⟨c, r, rfl⟩ : ∃ c r, t = c :: r := by
    cases t with
    | nil => exact absurd rfl hne
    | cons c r => exact ⟨c, r, rfl⟩
  show splitlinesGo (normalizeCRLF (c :: r)) [] = [c :: r]
  rw [normalizeCRLF_id hcr]
  have e : c :: r = (c :: r) ++ [] := by simp
  rw [e, splitlinesGo_walk (c :: r) hfree [] []]
  simp [splitlinesGo]

theorem stripComments_single_line {t : Text} (hfree : BreakFree t) :
    stripComments t = stripCommentLine t := by
  by_cases hne : t = []
  · subst hne; rfl
  · rw [stripComments, splitlines_single hfree hne, List.map_cons, List.map_nil, joinNL]

/-- Scanning stages only remove characters or add spaces: the output of a
`subSpace` stage over letter-free text is letter-free. -/
theorem letterFree_subSpace {m : Text → Option Text} (hm : Shrinking m)
    {t : Text} (h : LetterFree t) : LetterFree (subSpace m t) := by
  intro c hc
  rcases subSpace_chars hm hc with rfl | hmem
  · decide
  · exact h c hmem

theorem letterFree_cleanup {t : Text} (h : LetterFree t) :
    LetterFree (cleanupBracesAndControls t) := by
  intro c hc
  obtain ⟨c', hc', rfl⟩ := List.mem_map.mp hc
  rw [cleanupChar]
  split
  · decide
  · exact h c' hc'

theorem tokenizeF_letterFree : ∀ (f : Nat) (t : Text), LetterFree t →
    tokenizeF f t = [] := by
  intro f
  induction f with
  | zero =>
    intro t _
    cases t <;> rfl
  | succ f ih =>
    intro t h
    cases t with
    | nil => rfl
    | cons c rest =>
      have hc : isAsciiLetter c = false := h c (List.mem_cons_self c rest)
      rw [tokenizeF, if_neg (by simp [hc])]
      exact ih rest (fun x hx => h x (List.mem_cons_of_mem c hx))

theorem extract_letterFree {t : Text} (h : LetterFree (stripComments t)) :
    extract_tokens_from_latex t = [] := by
  have h1 := letterFree_subSpace mathEnvMatchAt_shrinking h
  have h2 := letterFree_subSpace displayMathAt_shrinking h1
  have h3 := letterFree_subSpace inlineMathAt_shrinking h2
  have h4 := letterFree_subSpace parenMathAt_shrinking h3
  have h5 := letterFree_subSpace bracketMathAt_shrinking h4
  have h6 := letterFree_subSpace dropCmdAt_shrinking h5
  have h7 := letterFree_subSpace beginEndTagAt_shrinking h6
  have h8 := letterFree_subSpace cmdAt_shrinking h7
  have h9 := letterFree_cleanup h8
  show ((tokenize (cleanupBracesAndControls (subSpace cmdAt (subSpace beginEndTagAt
    (subSpace dropCmdAt (subSpace bracketMathAt (subSpace parenMathAt
      (subSpace inlineMathAt (subSpace displayMathAt (subSpace mathEnvMatchAt
        (stripComments t))))))))))).map (fun tok => tok.map Char.toLower)) = []
  rw [tokenize, tokenizeF_letterFree _ _ h9, List.map_nil]

theorem noUnescapedPct_of_no_pct {a : Text} (h : '%' ∉ a) :
    ∀ prev, noUnescapedPct prev a = true := by
  induction a with
  | nil => intro prev; rfl
  | cons c a' ih =>
    intro prev
    have hc : c ≠ '%' := fun e => h (e ▸ List.mem_cons_self c a')
    rw [noUnescapedPct, if_neg hc]
    exact ih (fun hm => h (List.mem_cons_of_mem c hm)) (some c)

theorem lastOr_ne {a : Text} (h : '\\' ∉ a) :
    ∀ {prev : Option Char}, prev ≠ some '\\' → lastOr prev a ≠ some '\\' := by
  induction a with
  | nil => intro prev hp; exact hp
  | cons c a' ih =>
    intro prev _
    rw [lastOr]
    refine ih (fun hm => h (List.mem_cons_of_mem c hm)) ?_
    intro he
    have hc : c = '\\' := Option.some.inj he
    exact h (by rw [← hc]; exact List.mem_cons_self c a')

/-- Claim C2: per line, comment stripping deletes everything from the
first unescaped `%` to the end of the line; a line whose every `%` is
escaped is preserved entirely; and a string that is a single comment line
(optionally preceded by letter-free filler) extracts to no tokens. -/
theorem c2_comment_stripping :
    (∀ a b : Text, noUnescapedPct none a = true → lastOr none a ≠ some '\\' →
      stripCommentLine (a ++ '%' :: b) = a) ∧
    (∀ line : Text, noUnescapedPct none line = true →
      stripCommentLine line = line) ∧
    (∀ a b : Text, BreakFree a → BreakFree b → '%' ∉ a → '\\' ∉ a →
      LetterFree a → extract_tokens_from_latex (a ++ '%' :: b) = []) := by
  refine ⟨?_, ?_, ?_⟩
  · intro a b h hl
    exact stripCommentLineGo_prefix a none b h hl
  · intro line h
    exact stripCommentLineGo_no_unescaped line none h
  · intro a b hfa hfb hpa hba hla
    have hfree : BreakFree (a ++ '%' :: b) := by
      intro c hc
      rcases List.mem_append.mp hc with hc | hc
      · exact hfa c hc
      · rcases List.mem_cons.mp hc with rfl | hc
        · decide
        · exact hfb c hc
    have hstrip : stripComments (a ++ '%' :: b) = a := by
      rw [stripComments_single_line hfree]
      exact stripCommentLineGo_prefix a none b
        (noUnescapedPct_of_no_pct hpa none) (lastOr_ne hba (by simp))
    apply extract_letterFree
    rw [hstrip]
    exact hla

theorem c2_comment_stripping_witness :
    stripCommentLine ("ab ".data ++ '%' :: "cd".data) = "ab ".data ∧
    stripCommentLine ("a \\% b".data) = "a \\% b".data ∧
    extract_tokens_from_latex ([' ', ' '] ++ '%' :: "hello world".data) = [] :=
  ⟨c2_comment_stripping.1 ("ab ".data) ("cd".data) (by decide) (by decide),
    c2_comment_stripping.2.1 ("a \\% b".data) (by decide),
    c2_comment_stripping.2.2 [' ', ' '] ("hello world".data)
      (by unfold BreakFree; decide) (by unfold BreakFree; decide)
      (by decide) (by decide) (by unfold LetterFree; decide)⟩

/-! ### Token shape (C9) -/

theorem char_ofNat_toNat {n : Nat} (h : n.isValidChar) : (Char.ofNat n).toNat = n := by
  simp only [Char.ofNat]
  rw [dif_pos h]
  rfl

theorem toLower_of_not_upper {c : Char} (h : ¬(65 ≤ c.toNat ∧ c.toNat ≤ 90)) :
    c.toLower = c := by
  simp only [Char.toLower]
  rw [if_neg]
  intro hc
  exact h ⟨hc.1, hc.2⟩

theorem toLower_of_lower {c : Char} (h : isLowerAZ c = true) : c.toLower = c := by
  have hn : 97 ≤ c.toNat ∧ c.toNat ≤ 122 := by
    simpa [isLowerAZ] using h
  exact toLower_of_not_upper (by omega)

theorem isLowerAZ_toLower {c : Char} (h : isAsciiLetter c = true) :
    isLowerAZ c.toLower = true := by
  have hn : (65 ≤ c.toNat ∧ c.toNat ≤ 90) ∨ (97 ≤ c.toNat ∧ c.toNat ≤ 122) := by
    simpa [isAsciiLetter] using h
  rcases hn with h1 | h1
  · have hv : (c.toNat + 32).isValidChar := Or.inl (by omega)
    have e : (Char.toLower c).toNat = c.toNat + 32 := by
      simp only [Char.toLower]
      rw [if_pos (by omega)]
      exact char_ofNat_toNat hv
    simp only [isLowerAZ, e]
    simp
    omega
  · rw [toLower_of_not_upper (by omega)]
    simp only [isLowerAZ]
    simp
    omega

theorem takeWhile_all {p : Char → Bool} : ∀ {l : Text},
    (∀ c ∈ l, p c = true) → l.takeWhile p = l := by
  intro l
  induction l with
  | nil => intro _; rfl
  | cons c rest ih =>
    intro h
    rw [List.takeWhile_cons, if_pos (h c (List.mem_cons_self c rest)),
      ih (fun x hx => h x (List.mem_cons_of_mem c hx))]

theorem dropWhile_all {p : Char → Bool} : ∀ {l : Text},
    (∀ c ∈ l, p c = true) → l.dropWhile p = [] := by
  intro l
  induction l with
  | nil => intro _; rfl
  | cons c rest ih =>
    intro h
    rw [List.dropWhile_cons, if_pos (h c (List.mem_cons_self c rest))]
    exact ih (fun x hx => h x (List.mem_cons_of_mem c hx))

theorem takeWhile_append_stop {p : Char → Bool} : ∀ {w : Text},
    (∀ c ∈ w, p c = true) → ∀ {x : Char} {r : Text}, p x = false →
    (w ++ x :: r).takeWhile p = w ∧ (w ++ x :: r).dropWhile p = x :: r := by
  intro w
  induction w with
  | nil =>
    intro _ x r hx
    constructor
    · rw [List.nil_append, List.takeWhile_cons, if_neg (by simp [hx])]
    · rw [List.nil_append, List.dropWhile_cons, if_neg (by simp [hx])]
  | cons c w' ih =>
    intro h x r hx
    have hc : p c = true := h c (List.mem_cons_self c w')
    have h' : ∀ c ∈ w', p c = true := fun y hy => h y (List.mem_cons_of_mem c hy)
    constructor
    · rw [List.cons_append, List.takeWhile_cons, if_pos hc, (ih h' hx).1]
    · rw [List.cons_append, List.dropWhile_cons, if_pos hc]
      exact (ih h' hx).2

/-- Shape of the raw tokens produced by `_TOKEN_RE.findall`. -/
theorem tokenizeF_shape : ∀ (f : Nat) (t tok : Text), tok ∈ tokenizeF f t →
    ∃ l1 l2 : Text, (∀ c ∈ l1, isAsciiLetter c = true) ∧ l1 ≠ [] ∧
      (tok = l1 ∨ ((∀ c ∈ l2, isAsciiLetter c = true) ∧ l2 ≠ [] ∧
        tok = l1 ++ '\'' :: l2)) := by
  intro f
  induction f with
  | zero =>
    intro t tok h
    cases t <;> simp [tokenizeF] at h
  | succ f ih =>
    intro t tok h
    cases t with
    | nil => simp [tokenizeF] at h
    | cons c rest =>
      rw [tokenizeF] at h
      by_cases hc : isAsciiLetter c = true
      · rw [if_pos hc] at h
        have hl1 : ∀ x ∈ c :: List.takeWhile isAsciiLetter rest, isAsciiLetter x = true := by
          intro x hx
          rcases List.mem_cons.mp hx with rfl | hx
          · exact hc
          · exact List.mem_takeWhile_imp hx
        split at h
        · next x d r2 heq =>
          by_cases hd : isAsciiLetter d = true
          · rw [if_pos hd] at h
            rcases List.mem_cons.mp h with rfl | h
            · refine ⟨c :: List.takeWhile isAsciiLetter rest,
                d :: List.takeWhile isAsciiLetter r2, hl1, by simp, Or.inr ⟨?_, by simp, rfl⟩⟩
              intro x hx
              rcases List.mem_cons.mp hx with rfl | hx
              · exact hd
              · exact List.mem_takeWhile_imp hx
            · exact ih _ _ h
          · rw [if_neg hd] at h
            rcases List.mem_cons.mp h with rfl | h
            · exact ⟨c :: List.takeWhile isAsciiLetter rest, [], hl1, by simp, Or.inl rfl⟩
            · exact ih _ _ h
        · rcases List.mem_cons.mp h with rfl | h
          · exact ⟨c :: List.takeWhile isAsciiLetter rest, [], hl1, by simp, Or.inl rfl⟩
          · exact ih _ _ h
      · rw [if_neg hc] at h
        exact ih _ _ h

theorem validToken_word {l1 : Text} (h1 : ∀ c ∈ l1, isLowerAZ c = true)
    (hne : l1 ≠ []) : validToken l1 = true := by
  rw [validToken.eq_def]
  simp only [takeWhile_all h1, dropWhile_all h1]
  simpa using hne

theorem validToken_apos {l1 l2 : Text} (h1 : ∀ c ∈ l1, isLowerAZ c = true)
    (hne1 : l1 ≠ []) (h2 : ∀ c ∈ l2, isLowerAZ c = true) (hne2 : l2 ≠ []) :
    validToken (l1 ++ '\'' :: l2) = true := by
  have hstop : isLowerAZ '\'' = false := by decide
  obtain ⟨ht, hd⟩ := @takeWhile_append_stop isLowerAZ l1 h1 '\'' l2 hstop
  rw [validToken.eq_def]
  simp only [ht, hd]
  simpa [hne1, hne2, List.all_eq_true] using h2

/-- Claim C9: every extracted token is a non-empty lower-case ASCII letter
run with at most one internal apostrophe followed by letters; non-ASCII
letters never appear, so `café` yields the token `caf`. -/
theorem c9_token_shape :
    (∀ tex tok : Text, tok ∈ extract_tokens_from_latex tex → validToken tok = true) ∧
    extract_tokens_from_latex ("café".data) = [['c', 'a', 'f']] := by
  constructor
  · intro tex tok h
    obtain ⟨raw, hraw, rfl⟩ := List.mem_map.mp h
    obtain ⟨l1, l2, hl1, hne1, hcase⟩ := tokenizeF_shape _ _ raw hraw
    have hlow1 : ∀ c ∈ l1.map Char.toLower, isLowerAZ c = true := by
      intro c hcm
      obtain ⟨c', hc', rfl⟩ := List.mem_map.mp hcm
      exact isLowerAZ_toLower (hl1 c' hc')
    have hnem1 : l1.map Char.toLower ≠ [] := by
      simpa using hne1
    rcases hcase with rfl | ⟨hl2, hne2, rfl⟩
    · exact validToken_word hlow1 hnem1
    · have e : (l1 ++ '\'' :: l2).map Char.toLower =
          l1.map Char.toLower ++ '\'' :: l2.map Char.toLower := by
        have happ : Char.toLower '\'' = '\'' := by decide
        rw [List.map_append, List.map_cons, happ]
      rw [e]
      refine validToken_apos hlow1 hnem1 ?_ (by simpa using hne2)
      intro c hcm
      obtain ⟨c', hc', rfl⟩ := List.mem_map.mp hcm
      exact isLowerAZ_toLower (hl2 c' hc')
  · decide

theorem c9_token_shape_witness : validToken ['c', 'a', 'f'] = true :=
  c9_token_shape.1 ("café".data) ['c', 'a', 'f'] (by decide)

/-! ### Pipeline order and single-space replacement (C1) -/

theorem lowerAZ_ne {c : Char} (h : isLowerAZ c = true) (d : Char)
    (hd : d.toNat < 97 ∨ 122 < d.toNat) : c ≠ d := by
  simp only [isLowerAZ, Bool.and_eq_true, decide_eq_true_eq] at h
  intro e
  subst e
  omega

theorem lowerAZ_isAsciiLetter {c : Char} (h : isLowerAZ c = true) :
    isAsciiLetter c = true := by
  simp only [isLowerAZ, Bool.and_eq_true, decide_eq_true_eq] at h
  simp only [isAsciiLetter, Bool.or_eq_true, Bool.and_eq_true, decide_eq_true_eq]
  omega

theorem lowerAZ_not_break {c : Char} (h : isLowerAZ c = true) :
    isLineBreak c = false := by
  simp [isLineBreak, lowerAZ_ne h '\n' (by decide), lowerAZ_ne h '\r' (by decide),
    lowerAZ_ne h '\x0b' (by decide), lowerAZ_ne h '\x0c' (by decide),
    lowerAZ_ne h '\x1c' (by decide), lowerAZ_ne h '\x1d' (by decide),
    lowerAZ_ne h '\x1e' (by decide), lowerAZ_ne h '\x85' (by decide),
    lowerAZ_ne h '\u2028' (by decide), lowerAZ_ne h '\u2029' (by decide)]

theorem lowerAZ_cleanup {c : Char} (h : isLowerAZ c = true) : cleanupChar c = c := by
  simp [cleanupChar, lowerAZ_ne h '\x7b' (by decide), lowerAZ_ne h '\x7d' (by decide),
    lowerAZ_ne h '~' (by decide), lowerAZ_ne h '\\' (by decide)]

theorem mathTagAt_none_head {kw : Text} : ∀ (names : List Text) {c : Char} {r : Text},
    c ≠ '\\' → mathTagAt kw names (c :: r) = none := by
  intro names
  induction names with
  | nil => intro c r _; rfl
  | cons n ns ih =>
    intro c r hc
    have he : chopLit (envTagPat kw n) (c :: r) = none := by
      simp [envTagPat, chopLit, hc]
    simp only [mathTagAt, he]
    exact ih hc

theorem mathEnvMatchAt_none_head {c : Char} {r : Text} (hc : c ≠ '\\') :
    mathEnvMatchAt (c :: r) = none := by
  simp [mathEnvMatchAt, mathTagAt_none_head mathEnvNames hc]

theorem displayMathAt_none_head {c : Char} {r : Text} (hc : c ≠ '$') :
    displayMathAt (c :: r) = none := by
  simp [displayMathAt, chopLit, hc]

theorem inlineMathAt_none_head {c : Char} {r : Text} (hc : c ≠ '$') :
    inlineMathAt (c :: r) = none := by
  simp [inlineMathAt, chopLit, hc]

theorem parenMathAt_none_head {c : Char} {r : Text} (hc : c ≠ '\\') :
    parenMathAt (c :: r) = none := by
  simp [parenMathAt, chopLit, hc]

theorem bracketMathAt_none_head {c : Char} {r : Text} (hc : c ≠ '\\') :
    bracketMathAt (c :: r) = none := by
  simp [bracketMathAt, chopLit, hc]

theorem dropCmdGo_none_head : ∀ (names : List Text) {c : Char} {r : Text},
    c ≠ '\\' → dropCmdGo names (c :: r) = none := by
  intro names
  induction names with
  | nil => intro c r _; rfl
  | cons n ns ih =>
    intro c r hc
    have he : chopLit ('\\' :: n) (c :: r) = none := by simp [chopLit, hc]
    simp only [dropCmdGo, he]
    exact ih hc

theorem dropCmdAt_none_head {c : Char} {r : Text} (hc : c ≠ '\\') :
    dropCmdAt (c :: r) = none :=
  dropCmdGo_none_head dropCommandNames hc

theorem beginEndTagAt_none_head {c : Char} {r : Text} (hc : c ≠ '\\') :
    beginEndTagAt (c :: r) = none := by
  simp [beginEndTagAt, chopLit, hc]

theorem cmdAt_none_head {c : Char} {r : Text} (hc : c ≠ '\\') :
    cmdAt (c :: r) = none := by
  rw [cmdAt.eq_def]
  split
  · next x c2 rest heq =>
    injection heq with h1 h2
    exact absurd h1 hc
  · rfl

theorem lastCloseAfter_none_no_bs {op : Char} : ∀ {t : Text},
    '\\' ∉ t → lastCloseAfter op t = none := by
  intro t
  induction t with
  | nil => intro _; rfl
  | cons c rest ih =>
    intro h
    have hc : c ≠ '\\' := fun e => h (e ▸ List.mem_cons_self c rest)
    rw [lastCloseAfter.eq_def]
    simp only [if_neg hc]
    exact ih (fun hm => h (List.mem_cons_of_mem c hm))

theorem suffix_cons_cases {s t : Text} {a : Char} (h : s <:+ a :: t) :
    s = a :: t ∨ s <:+ t := by
  obtain ⟨p, hp⟩ := h
  cases p with
  | nil => exact Or.inl (by simpa using hp)
  | cons b p2 =>
    simp only [List.cons_append] at hp
    injection hp with h1 h2
    exact Or.inr ⟨p2, h2⟩

theorem suffix_append_cases : ∀ (w t s : Text), s <:+ w ++ t →
    s <:+ t ∨ ∃ c s2, (c :: s2) <:+ w ∧ s = (c :: s2) ++ t := by
  intro w
  induction w with
  | nil => intro t s hs; exact Or.inl (by simpa using hs)
  | cons a w ih =>
    intro t s hs
    rw [List.cons_append] at hs
    rcases suffix_cons_cases hs with h | h
    · exact Or.inr ⟨a, w, List.suffix_rfl, by simpa using h⟩
    · rcases ih t s h with h | ⟨c, s2, hsuf, rfl⟩
      · exact Or.inl h
      · exact Or.inr ⟨c, s2, hsuf.trans (List.suffix_cons a w), rfl⟩

theorem suffix_head_mem {s t : Text} (hs : s <:+ t) :
    s = [] ∨ ∃ c r, s = c :: r ∧ c ∈ t := by
  cases s with
  | nil => exact Or.inl rfl
  | cons c r => exact Or.inr ⟨c, r, rfl, hs.subset (List.mem_cons_self c r)⟩

theorem removeStages_eq_self {t : Text} (h : ∀ c ∈ t, c ≠ '\\' ∧ c ≠ '$') :
    removeMathEnvironments t = t ∧ removeDisplayMath t = t ∧
    removeInlineMath t = t ∧ removeParenMath t = t ∧ removeBracketMath t = t ∧
    removeDropCommands t = t ∧ removeBeginEndTags t = t ∧
    removeCommandsKeepText t = t := by
  have hc : ∀ s, s <:+ t → s = [] ∨ ∃ c r, s = c :: r ∧ c ≠ '\\' ∧ c ≠ '$' := by
    intro s hs
    rcases suffix_head_mem hs with rfl | ⟨c, r, rfl, hm⟩
    · exact Or.inl rfl
    · exact Or.inr ⟨c, r, rfl, h c hm⟩
  refine ⟨?_, ?_, ?_, ?_, ?_, ?_, ?_, ?_⟩
  · exact subSpace_eq_self (fun s hs => by
      rcases hc s hs with rfl | ⟨c, r, rfl, h1, _⟩
      · rfl
      · exact mathEnvMatchAt_none_head h1)
  · exact subSpace_eq_self (fun s hs => by
      rcases hc s hs with rfl | ⟨c, r, rfl, _, h2⟩
      · rfl
      · exact displayMathAt_none_head h2)
  · exact subSpace_eq_self (fun s hs => by
      rcases hc s hs with rfl | ⟨c, r, rfl, _, h2⟩
      · rfl
      · exact inlineMathAt_none_head h2)
  · exact subSpace_eq_self (fun s hs => by
      rcases hc s hs with rfl | ⟨c, r, rfl, h1, _⟩
      · rfl
      · exact parenMathAt_none_head h1)
  · exact subSpace_eq_self (fun s hs => by
      rcases hc s hs with rfl | ⟨c, r, rfl, h1, _⟩
      · rfl
      · exact bracketMathAt_none_head h1)
  · exact subSpace_eq_self (fun s hs => by
      rcases hc s hs with rfl | ⟨c, r, rfl, h1, _⟩
      · rfl
      · exact dropCmdAt_none_head h1)
  · exact subSpace_eq_self (fun s hs => by
      rcases hc s hs with rfl | ⟨c, r, rfl, h1, _⟩
      · rfl
      · exact beginEndTagAt_none_head h1)
  · exact subSpace_eq_self (fun s hs => by
      rcases hc s hs with rfl | ⟨c, r, rfl, h1, _⟩
      · rfl
      · exact cmdAt_none_head h1)

theorem cleanup_id : ∀ {t : Text}, (∀ c ∈ t, cleanupChar c = c) →
    cleanupBracesAndControls t = t := by
  intro t
  induction t with
  | nil => intro _; rfl
  | cons c r ih =>
    intro h
    show cleanupChar c :: List.map cleanupChar r = c :: r
    rw [h c (List.mem_cons_self c r),
      show List.map cleanupChar r = cleanupBracesAndControls r from rfl,
      ih (fun x hx => h x (List.mem_cons_of_mem c hx))]

theorem drop_len_le (p : Char → Bool) : ∀ (l : Text),
    (l.dropWhile p).length ≤ l.length := by
  intro l
  induction l with
  | nil => exact le_rfl
  | cons c r ih =>
    by_cases h : p c = true
    · rw [List.dropWhile_cons, if_pos h]
      exact Nat.le_succ_of_le ih
    · simp [List.dropWhile_cons, h]

theorem tokenizeF_nil : ∀ (f : Nat), tokenizeF f [] = [] := by
  intro f
  cases f <;> rfl

theorem tokenizeF_congr : ∀ (f g : Nat) (t : Text), t.length ≤ f → t.length ≤ g →
    tokenizeF f t = tokenizeF g t := by
  intro f
  induction f with
  | zero =>
    intro g t hf _
    have ht : t = [] := List.length_eq_zero.mp (Nat.le_zero.mp hf)
    subst ht
    cases g <;> rfl
  | succ f ih =>
    intro g t hf hg
    cases t with
    | nil => cases g <;> rfl
    | cons c rest =>
      cases g with
      | zero => simp at hg
      | succ g =>
        simp only [List.length_cons] at hf hg
        rw [tokenizeF]
        rw [tokenizeF]
        by_cases hc : isAsciiLetter c = true
        · rw [if_pos hc, if_pos hc]
          have hd0 : (List.dropWhile isAsciiLetter rest).length ≤ rest.length :=
            drop_len_le _ _
          split
          · next x d r2 heq =>
            have hr2 : r2.length + 2 ≤ rest.length := by
              have := congrArg List.length heq
              simp at this
              omega
            have hd2 : (List.dropWhile isAsciiLetter r2).length ≤ r2.length :=
              drop_len_le _ _
            by_cases hdl : isAsciiLetter d = true
            · rw [if_pos hdl, if_pos hdl]
              congr 1
              exact ih g _ (by omega) (by omega)
            · rw [if_neg hdl, if_neg hdl]
              congr 1
              rw [heq]
              exact ih g _ (by simp; omega) (by simp; omega)
          · congr 1
            exact ih g _ (by omega) (by omega)
        · rw [if_neg hc, if_neg hc]
          exact ih g rest (by omega) (by omega)

theorem tokenize_nil : tokenize [] = [] := rfl

theorem tokenize_cons_skip {c : Char} {t : Text} (hc : isAsciiLetter c = false) :
    tokenize (c :: t) = tokenize t := by
  simp only [tokenize, List.length_cons]
  rw [tokenizeF, if_neg (by simp [hc])]

theorem tokenize_append_word {w r : Text} (hw : ∀ c ∈ w, isAsciiLetter c = true)
    (hne : w ≠ []) (hr : r = [] ∨ ∃ x r2, r = x :: r2 ∧ isAsciiLetter x = false ∧ x ≠ '\'') :
    tokenize (w ++ r) = w :: tokenize r := by
  obtain ⟨c, w2, rfl⟩ : ∃ c w2, w = c :: w2 := by
    cases w with
    | nil => exact absurd rfl hne
    | cons c w2 => exact ⟨c, w2, rfl⟩
  have hc : isAsciiLetter c = true := hw c (List.mem_cons_self c w2)
  have hw2 : ∀ x ∈ w2, isAsciiLetter x = true :=
    fun x hx => hw x (List.mem_cons_of_mem c hx)
  rcases hr with rfl | ⟨x, r2, rfl, hx, hxap⟩
  · rw [List.append_nil, show tokenize ([] : Text) = [] from rfl]
    simp only [tokenize, List.length_cons]
    rw [tokenizeF, if_pos hc, dropWhile_all hw2, takeWhile_all hw2]
    simp [tokenizeF_nil]
  · simp only [tokenize, List.cons_append, List.length_cons]
    rw [tokenizeF, if_pos hc, (takeWhile_append_stop hw2 hx).1,
      (takeWhile_append_stop hw2 hx).2]
    split
    · next y d r3 heq =>
      injection heq with h1 h2
      exact absurd h1 hxap
    · congr 1
      exact tokenizeF_congr _ _ _ (by simp) le_rfl

theorem tokenize_two_words {w1 w2 : Text}
    (h1 : ∀ c ∈ w1, isAsciiLetter c = true) (hne1 : w1 ≠ [])
    (h2 : ∀ c ∈ w2, isAsciiLetter c = true) (hne2 : w2 ≠ []) :
    tokenize (w1 ++ ' ' :: w2) = [w1, w2] := by
  rw [tokenize_append_word h1 hne1 (Or.inr ⟨' ', w2, rfl, by decide, by decide⟩)]
  rw [tokenize_cons_skip (by decide)]
  have h3 : tokenize w2 = [w2] := by
    have := tokenize_append_word h2 hne2 (Or.inl rfl)
    simpa [tokenize_nil] using this
  rw [h3]

theorem map_lower_id : ∀ {w : Text}, (∀ c ∈ w, isLowerAZ c = true) →
    w.map Char.toLower = w := by
  intro w
  induction w with
  | nil => intro _; rfl
  | cons c r ih =>
    intro h
    rw [List.map_cons, toLower_of_lower (h c (List.mem_cons_self c r)),
      ih (fun x hx => h x (List.mem_cons_of_mem c hx))]

/-- Suffix shapes of `w1 ++ \(x\) ++ w2` for lower-case words `w1`, `w2`:
empty, headed by a character that starts no math/command match, or at one
of the two backslashes of the `\( ... \)` span. -/
theorem suffixes_parenSep {w1 w2 s : Text} (h1 : ∀ c ∈ w1, isLowerAZ c = true)
    (h2 : ∀ c ∈ w2, isLowerAZ c = true)
    (hs : s <:+ w1 ++ '\\' :: '(' :: 'x' :: '\\' :: ')' :: w2) :
    s = [] ∨ (∃ c r, s = c :: r ∧ c ≠ '\\' ∧ c ≠ '$') ∨
    (∃ r, s = '\\' :: '(' :: r) ∨ ∃ r, s = '\\' :: ')' :: r := by
  rcases suffix_append_cases _ _ _ hs with hmid | ⟨c, s2, hsub, rfl⟩
  · rcases suffix_cons_cases hmid with rfl | hmid
    · exact Or.inr (Or.inr (Or.inl ⟨_, rfl⟩))
    rcases suffix_cons_cases hmid with rfl | hmid
    · exact Or.inr (Or.inl ⟨'(', _, rfl, by decide, by decide⟩)
    rcases suffix_cons_cases hmid with rfl | hmid
    · exact Or.inr (Or.inl ⟨'x', _, rfl, by decide, by decide⟩)
    rcases suffix_cons_cases hmid with rfl | hmid
    · exact Or.inr (Or.inr (Or.inr ⟨_, rfl⟩))
    rcases suffix_cons_cases hmid with rfl | hmid
    · exact Or.inr (Or.inl ⟨')', _, rfl, by decide, by decide⟩)
    rcases suffix_head_mem hmid with rfl | ⟨c, r, rfl, hc⟩
    · exact Or.inl rfl
    · have hcl := h2 c hc
      exact Or.inr (Or.inl ⟨c, r, rfl, lowerAZ_ne hcl '\\' (by decide),
        lowerAZ_ne hcl '$' (by decide)⟩)
  · have hcl : isLowerAZ c = true := h1 c (hsub.subset (List.mem_cons_self c s2))
    exact Or.inr (Or.inl ⟨c, s2 ++ _, List.cons_append c s2 _,
      lowerAZ_ne hcl '\\' (by decide), lowerAZ_ne hcl '$' (by decide)⟩)

/-- Suffix shapes of `w1 ++ \cite{k} ++ w2` for lower-case words `w1`, `w2`. -/
theorem suffixes_citeSep {w1 w2 s : Text} (h1 : ∀ c ∈ w1, isLowerAZ c = true)
    (h2 : ∀ c ∈ w2, isLowerAZ c = true)
    (hs : s <:+ w1 ++ '\\' :: 'c' :: 'i' :: 't' :: 'e' :: '{' :: 'k' :: '}' :: w2) :
    s = [] ∨ (∃ c r, s = c :: r ∧ c ≠ '\\' ∧ c ≠ '$') ∨
    ∃ r, s = '\\' :: 'c' :: r := by
  rcases suffix_append_cases _ _ _ hs with hmid | ⟨c, s2, hsub, rfl⟩
  · rcases suffix_cons_cases hmid with rfl | hmid
    · exact Or.inr (Or.inr ⟨_, rfl⟩)
    rcases suffix_cons_cases hmid with rfl | hmid
    · exact Or.inr (Or.inl ⟨'c', _, rfl, by decide, by decide⟩)
    rcases suffix_cons_cases hmid with rfl | hmid
    · exact Or.inr (Or.inl ⟨'i', _, rfl, by decide, by decide⟩)
    rcases suffix_cons_cases hmid with rfl | hmid
    · exact Or.inr (Or.inl ⟨'t', _, rfl, by decide, by decide⟩)
    rcases suffix_cons_cases hmid with rfl | hmid
    · exact Or.inr (Or.inl ⟨'e', _, rfl, by decide, by decide⟩)
    rcases suffix_cons_cases hmid with rfl | hmid
    · exact Or.inr (Or.inl ⟨'{', _, rfl, by decide, by decide⟩)
    rcases suffix_cons_cases hmid with rfl | hmid
    · exact Or.inr (Or.inl ⟨'k', _, rfl, by decide, by decide⟩)
    rcases suffix_cons_cases hmid with rfl | hmid
    · exact Or.inr (Or.inl ⟨'}', _, rfl, by decide, by decide⟩)
    rcases suffix_head_mem hmid with rfl | ⟨c, r, rfl, hc⟩
    · exact Or.inl rfl
    · have hcl := h2 c hc
      exact Or.inr (Or.inl ⟨c, r, rfl, lowerAZ_ne hcl '\\' (by decide),
        lowerAZ_ne hcl '$' (by decide)⟩)
  · have hcl : isLowerAZ c = true := h1 c (hsub.subset (List.mem_cons_self c s2))
    exact Or.inr (Or.inl ⟨c, s2 ++ _, List.cons_append c s2 _,
      lowerAZ_ne hcl '\\' (by decide), lowerAZ_ne hcl '$' (by decide)⟩)

/-- The `\( ... \)` span between two lower-case words is replaced by a
single space. -/
theorem removeParenMath_sep {w1 w2 : Text} (h1 : ∀ c ∈ w1, isLowerAZ c = true)
    (h2 : ∀ c ∈ w2, isLowerAZ c = true) :
    removeParenMath (w1 ++ '\\' :: '(' :: 'x' :: '\\' :: ')' :: w2) = w1 ++ ' ' :: w2 := by
  have hbs2 : '\\' ∉ w2 := fun hm => absurd (h2 _ hm) (by decide)
  have hparenAt : parenMathAt ('\\' :: '(' :: 'x' :: '\\' :: ')' :: w2) = some w2 := by
    show (match lastCloseAfter ')' w2 with
      | some r => some r
      | none => some w2) = some w2
    rw [lastCloseAfter_none_no_bs hbs2]
  have happ : subSpace parenMathAt (w1 ++ '\\' :: '(' :: 'x' :: '\\' :: ')' :: w2) =
      w1 ++ subSpace parenMathAt ('\\' :: '(' :: 'x' :: '\\' :: ')' :: w2) := by
    apply subSpace_append
    intro s hs hne
    obtain ⟨c, s2, rfl⟩ : ∃ c s2, s = c :: s2 := by
      cases s with
      | nil => exact absurd rfl hne
      | cons c s2 => exact ⟨c, s2, rfl⟩
    have hc : isLowerAZ c = true := h1 c (hs.subset (List.mem_cons_self c s2))
    rw [List.cons_append]
    exact parenMathAt_none_head (lowerAZ_ne hc '\\' (by decide))
  have hw2 : subSpace parenMathAt w2 = w2 := by
    apply subSpace_eq_self
    intro s hs
    rcases suffix_head_mem hs with rfl | ⟨c, r, rfl, hc⟩
    · rfl
    · exact parenMathAt_none_head (lowerAZ_ne (h2 c hc) '\\' (by decide))
  show subSpace parenMathAt (w1 ++ '\\' :: '(' :: 'x' :: '\\' :: ')' :: w2) = w1 ++ ' ' :: w2
  rw [happ, subSpace_cons_some parenMathAt_shrinking hparenAt, hw2]

/-- The `\cite{k}` span between two lower-case words is replaced by a
single space. -/
theorem removeDropCommands_sep {w1 w2 : Text} (h1 : ∀ c ∈ w1, isLowerAZ c = true)
    (h2 : ∀ c ∈ w2, isLowerAZ c = true) :
    removeDropCommands (w1 ++ '\\' :: 'c' :: 'i' :: 't' :: 'e' :: '{' :: 'k' :: '}' :: w2) =
      w1 ++ ' ' :: w2 := by
  have hdropAt : dropCmdAt ('\\' :: 'c' :: 'i' :: 't' :: 'e' :: '{' :: 'k' :: '}' :: w2) =
      some w2 := rfl
  have happ : subSpace dropCmdAt
      (w1 ++ '\\' :: 'c' :: 'i' :: 't' :: 'e' :: '{' :: 'k' :: '}' :: w2) =
      w1 ++ subSpace dropCmdAt ('\\' :: 'c' :: 'i' :: 't' :: 'e' :: '{' :: 'k' :: '}' :: w2) := by
    apply subSpace_append
    intro s hs hne
    obtain ⟨c, s2, rfl⟩ : ∃ c s2, s = c :: s2 := by
      cases s with
      | nil => exact absurd rfl hne
      | cons c s2 => exact ⟨c, s2, rfl⟩
    have hc : isLowerAZ c = true := h1 c (hs.subset (List.mem_cons_self c s2))
    rw [List.cons_append]
    exact dropCmdAt_none_head (lowerAZ_ne hc '\\' (by decide))
  have hw2 : subSpace dropCmdAt w2 = w2 := by
    apply subSpace_eq_self
    intro s hs
    rcases suffix_head_mem hs with rfl | ⟨c, r, rfl, hc⟩
    · rfl
    · exact dropCmdAt_none_head (lowerAZ_ne (h2 c hc) '\\' (by decide))
  show subSpace dropCmdAt (w1 ++ '\\' :: 'c' :: 'i' :: 't' :: 'e' :: '{' :: 'k' :: '}' :: w2) =
    w1 ++ ' ' :: w2
  rw [happ, subSpace_cons_some dropCmdAt_shrinking hdropAt, hw2]

/-- Full-pipeline run on `w1 \(x\) w2`: the two words stay separate tokens. -/
theorem extract_parenSep {w1 w2 : Text} (hw1 : LowerWord w1) (hw2 : LowerWord w2) :
    extract_tokens_from_latex (w1 ++ '\\' :: '(' :: 'x' :: '\\' :: ')' :: w2) = [w1, w2] := by
  obtain ⟨hne1, hl1⟩ := hw1
  obtain ⟨hne2, hl2⟩ := hw2
  have hmem : ∀ c ∈ w1 ++ '\\' :: '(' :: 'x' :: '\\' :: ')' :: w2,
      isLowerAZ c = true ∨ c ∈ (['\\', '(', 'x', '\\', ')'] : Text) := by
    intro c hc
    rcases List.mem_append.mp hc with hc | hc
    · exact Or.inl (hl1 c hc)
    · rcases List.mem_cons.mp hc with rfl | hc
      · exact Or.inr (by decide)
      rcases List.mem_cons.mp hc with rfl | hc
      · exact Or.inr (by decide)
      rcases List.mem_cons.mp hc with rfl | hc
      · exact Or.inr (by decide)
      rcases List.mem_cons.mp hc with rfl | hc
      · exact Or.inr (by decide)
      rcases List.mem_cons.mp hc with rfl | hc
      · exact Or.inr (by decide)
      · exact Or.inl (hl2 c hc)
  have hfree : BreakFree (w1 ++ '\\' :: '(' :: 'x' :: '\\' :: ')' :: w2) := by
    intro c hc
    rcases hmem c hc with h | h
    · exact lowerAZ_not_break h
    · simp only [List.mem_cons, List.not_mem_nil, or_false] at h
      rcases h with rfl | rfl | rfl | rfl | rfl <;> decide
  have hpct : '%' ∉ w1 ++ '\\' :: '(' :: 'x' :: '\\' :: ')' :: w2 := by
    intro hc
    rcases hmem '%' hc with h | h
    · exact absurd h (by decide)
    · revert h
      decide
  have hstrip : stripComments (w1 ++ '\\' :: '(' :: 'x' :: '\\' :: ')' :: w2) =
      w1 ++ '\\' :: '(' :: 'x' :: '\\' :: ')' :: w2 := by
    rw [stripComments_single_line hfree]
    exact stripCommentLineGo_no_unescaped _ none (noUnescapedPct_of_no_pct hpct none)
  have henv : removeMathEnvironments (w1 ++ '\\' :: '(' :: 'x' :: '\\' :: ')' :: w2) =
      w1 ++ '\\' :: '(' :: 'x' :: '\\' :: ')' :: w2 := by
    apply subSpace_eq_self
    intro s hs
    rcases suffixes_parenSep hl1 hl2 hs with rfl | ⟨c, r, rfl, hc, _⟩ | ⟨r, rfl⟩ | ⟨r, rfl⟩
    · rfl
    · exact mathEnvMatchAt_none_head hc
    · rfl
    · rfl
  have hdisp : removeDisplayMath (w1 ++ '\\' :: '(' :: 'x' :: '\\' :: ')' :: w2) =
      w1 ++ '\\' :: '(' :: 'x' :: '\\' :: ')' :: w2 := by
    apply subSpace_eq_self
    intro s hs
    rcases suffixes_parenSep hl1 hl2 hs with rfl | ⟨c, r, rfl, _, hc⟩ | ⟨r, rfl⟩ | ⟨r, rfl⟩
    · rfl
    · exact displayMathAt_none_head hc
    · rfl
    · rfl
  have hinl : removeInlineMath (w1 ++ '\\' :: '(' :: 'x' :: '\\' :: ')' :: w2) =
      w1 ++ '\\' :: '(' :: 'x' :: '\\' :: ')' :: w2 := by
    apply subSpace_eq_self
    intro s hs
    rcases suffixes_parenSep hl1 hl2 hs with rfl | ⟨c, r, rfl, _, hc⟩ | ⟨r, rfl⟩ | ⟨r, rfl⟩
    · rfl
    · exact inlineMathAt_none_head hc
    · rfl
    · rfl
  have hparen := removeParenMath_sep hl1 hl2
  have hUch : ∀ c ∈ w1 ++ ' ' :: w2, c ≠ '\\' ∧ c ≠ '$' := by
    intro c hc
    rcases List.mem_append.mp hc with hc | hc
    · have h := hl1 c hc
      exact ⟨lowerAZ_ne h '\\' (by decide), lowerAZ_ne h '$' (by decide)⟩
    · rcases List.mem_cons.mp hc with rfl | hc
      · exact ⟨by decide, by decide⟩
      · have h := hl2 c hc
        exact ⟨lowerAZ_ne h '\\' (by decide), lowerAZ_ne h '$' (by decide)⟩
  have hU := removeStages_eq_self hUch
  have hclean : cleanupBracesAndControls (w1 ++ ' ' :: w2) = w1 ++ ' ' :: w2 := by
    apply cleanup_id
    intro c hc
    rcases List.mem_append.mp hc with hc | hc
    · exact lowerAZ_cleanup (hl1 c hc)
    · rcases List.mem_cons.mp hc with rfl | hc
      · decide
      · exact lowerAZ_cleanup (hl2 c hc)
  have htok : tokenize (w1 ++ ' ' :: w2) = [w1, w2] :=
    tokenize_two_words (fun c hc => lowerAZ_isAsciiLetter (hl1 c hc)) hne1
      (fun c hc => lowerAZ_isAsciiLetter (hl2 c hc)) hne2
  show (tokenize (cleanupBracesAndControls (removeCommandsKeepText (removeBeginEndTags
      (removeDropCommands (removeBracketMath (removeParenMath (removeInlineMath
      (removeDisplayMath (removeMathEnvironments (stripComments
      (w1 ++ '\\' :: '(' :: 'x' :: '\\' :: ')' :: w2)))))))))))).map
      (fun tok => tok.map Char.toLower) = [w1, w2]
  rw [hstrip, henv, hdisp, hinl, hparen, hU.2.2.2.2.1, hU.2.2.2.2.2.1,
    hU.2.2.2.2.2.2.1, hU.2.2.2.2.2.2.2, hclean, htok]
  simp [map_lower_id hl1, map_lower_id hl2]

/-- Full-pipeline run on `w1 \cite{k} w2`: the two words stay separate
tokens and the citation key disappears. -/
theorem extract_citeSep {w1 w2 : Text} (hw1 : LowerWord w1) (hw2 : LowerWord w2) :
    extract_tokens_from_latex
      (w1 ++ '\\' :: 'c' :: 'i' :: 't' :: 'e' :: '{' :: 'k' :: '}' :: w2) = [w1, w2] := by
  obtain ⟨hne1, hl1⟩ := hw1
  obtain ⟨hne2, hl2⟩ := hw2
  have hmem : ∀ c ∈ w1 ++ '\\' :: 'c' :: 'i' :: 't' :: 'e' :: '{' :: 'k' :: '}' :: w2,
      isLowerAZ c = true ∨ c ∈ (['\\', 'c', 'i', 't', 'e', '{', 'k', '}'] : Text) := by
    intro c hc
    rcases List.mem_append.mp hc with hc | hc
    · exact Or.inl (hl1 c hc)
    · rcases List.mem_cons.mp hc with rfl | hc
      · exact Or.inr (by decide)
      rcases List.mem_cons.mp hc with rfl | hc
      · exact Or.inr (by decide)
      rcases List.mem_cons.mp hc with rfl | hc
      · exact Or.inr (by decide)
      rcases List.mem_cons.mp hc with rfl | hc
      · exact Or.inr (by decide)
      rcases List.mem_cons.mp hc with rfl | hc
      · exact Or.inr (by decide)
      rcases List.mem_cons.mp hc with rfl | hc
      · exact Or.inr (by decide)
      rcases List.mem_cons.mp hc with rfl | hc
      · exact Or.inr (by decide)
      rcases List.mem_cons.mp hc with rfl | hc
      · exact Or.inr (by decide)
      · exact Or.inl (hl2 c hc)
  have hfree : BreakFree (w1 ++ '\\' :: 'c' :: 'i' :: 't' :: 'e' :: '{' :: 'k' :: '}' :: w2) := by
    intro c hc
    rcases hmem c hc with h | h
    · exact lowerAZ_not_break h
    · simp only [List.mem_cons, List.not_mem_nil, or_false] at h
      rcases h with rfl | rfl | rfl | rfl | rfl | rfl | rfl | rfl <;> decide
  have hpct : '%' ∉ w1 ++ '\\' :: 'c' :: 'i' :: 't' :: 'e' :: '{' :: 'k' :: '}' :: w2 := by
    intro hc
    rcases hmem '%' hc with h | h
    · exact absurd h (by decide)
    · revert h
      decide
  have hstrip : stripComments (w1 ++ '\\' :: 'c' :: 'i' :: 't' :: 'e' :: '{' :: 'k' :: '}' :: w2) =
      w1 ++ '\\' :: 'c' :: 'i' :: 't' :: 'e' :: '{' :: 'k' :: '}' :: w2 := by
    rw [stripComments_single_line hfree]
    exact stripCommentLineGo_no_unescaped _ none (noUnescapedPct_of_no_pct hpct none)
  have henv : removeMathEnvironments
      (w1 ++ '\\' :: 'c' :: 'i' :: 't' :: 'e' :: '{' :: 'k' :: '}' :: w2) =
      w1 ++ '\\' :: 'c' :: 'i' :: 't' :: 'e' :: '{' :: 'k' :: '}' :: w2 := by
    apply subSpace_eq_self
    intro s hs
    rcases suffixes_citeSep hl1 hl2 hs with rfl | ⟨c, r, rfl, hc, _⟩ | ⟨r, rfl⟩
    · rfl
    · exact mathEnvMatchAt_none_head hc
    · rfl
  have hdisp : removeDisplayMath
      (w1 ++ '\\' :: 'c' :: 'i' :: 't' :: 'e' :: '{' :: 'k' :: '}' :: w2) =
      w1 ++ '\\' :: 'c' :: 'i' :: 't' :: 'e' :: '{' :: 'k' :: '}' :: w2 := by
    apply subSpace_eq_self
    intro s hs
    rcases suffixes_citeSep hl1 hl2 hs with rfl | ⟨c, r, rfl, _, hc⟩ | ⟨r, rfl⟩
    · rfl
    · exact displayMathAt_none_head hc
    · rfl
  have hinl : removeInlineMath
      (w1 ++ '\\' :: 'c' :: 'i' :: 't' :: 'e' :: '{' :: 'k' :: '}' :: w2) =
      w1 ++ '\\' :: 'c' :: 'i' :: 't' :: 'e' :: '{' :: 'k' :: '}' :: w2 := by
    apply subSpace_eq_self
    intro s hs
    rcases suffixes_citeSep hl1 hl2 hs with rfl | ⟨c, r, rfl, _, hc⟩ | ⟨r, rfl⟩
    · rfl
    · exact inlineMathAt_none_head hc
    · rfl
  have hpar : removeParenMath
      (w1 ++ '\\' :: 'c' :: 'i' :: 't' :: 'e' :: '{' :: 'k' :: '}' :: w2) =
      w1 ++ '\\' :: 'c' :: 'i' :: 't' :: 'e' :: '{' :: 'k' :: '}' :: w2 := by
    apply subSpace_eq_self
    intro s hs
    rcases suffixes_citeSep hl1 hl2 hs with rfl | ⟨c, r, rfl, hc, _⟩ | ⟨r, rfl⟩
    · rfl
    · exact parenMathAt_none_head hc
    · rfl
  have hbra : removeBracketMath
      (w1 ++ '\\' :: 'c' :: 'i' :: 't' :: 'e' :: '{' :: 'k' :: '}' :: w2) =
      w1 ++ '\\' :: 'c' :: 'i' :: 't' :: 'e' :: '{' :: 'k' :: '}' :: w2 := by
    apply subSpace_eq_self
    intro s hs
    rcases suffixes_citeSep hl1 hl2 hs with rfl | ⟨c, r, rfl, hc, _⟩ | ⟨r, rfl⟩
    · rfl
    · exact bracketMathAt_none_head hc
    · rfl
  have hdrop := removeDropCommands_sep hl1 hl2
  have hUch : ∀ c ∈ w1 ++ ' ' :: w2, c ≠ '\\' ∧ c ≠ '$' := by
    intro c hc
    rcases List.mem_append.mp hc with hc | hc
    · have h := hl1 c hc
      exact ⟨lowerAZ_ne h '\\' (by decide), lowerAZ_ne h '$' (by decide)⟩
    · rcases List.mem_cons.mp hc with rfl | hc
      · exact ⟨by decide, by decide⟩
      · have h := hl2 c hc
        exact ⟨lowerAZ_ne h '\\' (by decide), lowerAZ_ne h '$' (by decide)⟩
  have hU := removeStages_eq_self hUch
  have hclean : cleanupBracesAndControls (w1 ++ ' ' :: w2) = w1 ++ ' ' :: w2 := by
    apply cleanup_id
    intro c hc
    rcases List.mem_append.mp hc with hc | hc
    · exact lowerAZ_cleanup (hl1 c hc)
    · rcases List.mem_cons.mp hc with rfl | hc
      · decide
      · exact lowerAZ_cleanup (hl2 c hc)
  have htok : tokenize (w1 ++ ' ' :: w2) = [w1, w2] :=
    tokenize_two_words (fun c hc => lowerAZ_isAsciiLetter (hl1 c hc)) hne1
      (fun c hc => lowerAZ_isAsciiLetter (hl2 c hc)) hne2
  show (tokenize (cleanupBracesAndControls (removeCommandsKeepText (removeBeginEndTags
      (removeDropCommands (removeBracketMath (removeParenMath (removeInlineMath
      (removeDisplayMath (removeMathEnvironments (stripComments
      (w1 ++ '\\' :: 'c' :: 'i' :: 't' :: 'e' :: '{' :: 'k' :: '}' :: w2)))))))))))).map
      (fun tok => tok.map Char.toLower) = [w1, w2]
  rw [hstrip, henv, hdisp, hinl, hpar, hbra, hdrop, hU.2.2.2.2.2.2.1,
    hU.2.2.2.2.2.2.2, hclean, htok]
  simp [map_lower_id hl1, map_lower_id hl2]

/-- Claim C1: `extract_tokens_from_latex` applies its stages in exactly the
order comment stripping; math environments; `$$` display math; `$` inline
math; `\( \)` paren math; `\[ \]` bracket math; drop-command removal;
begin/end tag removal; generic command removal; brace/control cleanup;
tokenization with lowercasing.  A removed math or drop-command span is
replaced by a single space, so the words adjacent to a removed region are
never joined into one token: for all lower-case words `w1`, `w2`, both
`w1 \(x\) w2` and `w1 \cite\x7bk\x7d w2` extract to the two separate
tokens `w1` and `w2`. -/
theorem c1_pipeline_order :
    (∀ tex : Text, extract_tokens_from_latex tex =
      (tokenize (cleanupBracesAndControls (removeCommandsKeepText
        (removeBeginEndTags (removeDropCommands (removeBracketMath
          (removeParenMath (removeInlineMath (removeDisplayMath
            (removeMathEnvironments (stripComments tex))))))))))).map
        (fun tok => tok.map Char.toLower)) ∧
    (∀ w1 w2 : Text, LowerWord w1 → LowerWord w2 →
      removeParenMath (w1 ++ '\\' :: '(' :: 'x' :: '\\' :: ')' :: w2) = w1 ++ ' ' :: w2 ∧
      extract_tokens_from_latex (w1 ++ '\\' :: '(' :: 'x' :: '\\' :: ')' :: w2) = [w1, w2]) ∧
    (∀ w1 w2 : Text, LowerWord w1 → LowerWord w2 →
      removeDropCommands (w1 ++ '\\' :: 'c' :: 'i' :: 't' :: 'e' :: '{' :: 'k' :: '}' :: w2) =
        w1 ++ ' ' :: w2 ∧
      extract_tokens_from_latex
        (w1 ++ '\\' :: 'c' :: 'i' :: 't' :: 'e' :: '{' :: 'k' :: '}' :: w2) = [w1, w2]) :=
  ⟨fun _ => rfl,
   fun w1 w2 hw1 hw2 => ⟨removeParenMath_sep hw1.2 hw2.2, extract_parenSep hw1 hw2⟩,
   fun w1 w2 hw1 hw2 => ⟨removeDropCommands_sep hw1.2 hw2.2, extract_citeSep hw1 hw2⟩⟩

theorem c1_pipeline_order_witness :
    extract_tokens_from_latex (['h', 'i'] ++ '\\' :: '(' :: 'x' :: '\\' :: ')' :: ['o', 'k']) =
      [['h', 'i'], ['o', 'k']] ∧
    extract_tokens_from_latex
        (['h', 'i'] ++ '\\' :: 'c' :: 'i' :: 't' :: 'e' :: '{' :: 'k' :: '}' :: ['o', 'k']) =
      [['h', 'i'], ['o', 'k']] :=
  ⟨(c1_pipeline_order.2.1 ['h', 'i'] ['o', 'k'] (by unfold LowerWord; decide)
      (by unfold LowerWord; decide)).2,
   (c1_pipeline_order.2.2 ['h', 'i'] ['o', 'k'] (by unfold LowerWord; decide)
      (by unfold LowerWord; decide)).2⟩

end LatexWC

